import Mathlib

/-!
# Verification of `MergeTranslationFiles.py`

A shallow embedding of the regex-based localization width merger.
Strings are modelled as `List Char`.  The concrete regular expressions of the
source are embedded as character-level matching functions that follow Python's
`re` semantics (leftmost match, greedy/lazy quantifiers with backtracking,
alternation tried in order, `\b` word boundaries, `\s` whitespace):

* `group_open_re  = <Group\b[^>]*\bId="([^"]+)"[^>]*>`
* `group_close_re = </Group>`
* `ls_tag_re      = <LocalizedString\b[^>]*?/?>`
* `id_attr_re     = \bId="([^"]*)"`
* `width_attr_re  = \bWidth="([^"]*)"`
* `height probe   = \bHeight="`
* `closer probe   = \s*/?>\s*$`

The two components `build_width_map` and `apply_widths_surgically` are then
translated token-for-token from the source.
-/

namespace MergeTranslation

/-- Python `\w` on the ASCII range: letters, digits and underscore
(the documents involved are ASCII). -/
def isWordChar (c : Char) : Bool :=
  c.isAlpha || c.isDigit || c = '_'

/-- Python `\s` on the ASCII range: space, tab, newline, carriage return,
vertical tab, form feed. -/
def isSpaceChar (c : Char) : Bool :=
  c = ' ' || c = '\t' || c = '\n' || c = '\r' || c = '\x0b' || c = '\x0c'

/-- A word boundary `\b` immediately before a word character holds when the
preceding character (if any) is not a word character. `none` stands for the
start of the string. -/
def boundaryOk (prev : Option Char) : Bool :=
  match prev with
  | none => true
  | some c => !isWordChar c

/-- First-success alternation on `Option`, mirroring ordered regex
alternation. -/
def orE {α : Type} (a b : Option α) : Option α :=
  match a with
  | some x => some x
  | none => b

/-- Strip a literal pattern from the front of a string
(`none` when the pattern does not match). -/
def stripPre : List Char → List Char → Option (List Char)
  | [], s => some s
  | _ :: _, [] => none
  | p :: ps, c :: cs => if p = c then stripPre ps cs else none

/-- Split a string at the first occurrence of the character `c`:
returns the (possibly empty) prefix before `c` and the text after it,
or `none` when `c` does not occur.  This is the shape shared by the greedy
`[^X]*X` steps of the patterns. -/
def splitAtChar (c : Char) (s : List Char) : Option (List Char × List Char) :=
  match s.dropWhile (· ≠ c) with
  | [] => none
  | _ :: rest => some (s.takeWhile (· ≠ c), rest)

/-- Number of positions at which `pat` occurs as a substring of `s`
(positions range over all suffixes, including the empty one). -/
def occCount (pat s : List Char) : Nat :=
  ((List.range (s.length + 1)).filter (fun i => pat.isPrefixOf (s.drop i))).length

/-- Literal fragments of the concrete regular expressions, as explicit
character lists: `<Group`, `</Group>`, `<LocalizedString`, `Id="`,
`Width="`, `Height="`. -/
def gOpenLit : List Char := ['<', 'G', 'r', 'o', 'u', 'p']

def gCloseLit : List Char := ['<', '/', 'G', 'r', 'o', 'u', 'p', '>']

def lsLit : List Char :=
  ['<', 'L', 'o', 'c', 'a', 'l', 'i', 'z', 'e', 'd', 'S', 't', 'r', 'i', 'n', 'g']

def idLit : List Char := ['I', 'd', '=', '\"']

def widthLit : List Char := ['W', 'i', 'd', 't', 'h', '=', '\"']

def heightLit : List Char := ['H', 'e', 'i', 'g', 'h', 't', '=', '\"']

/-- One backtracking attempt of `<Group\b[^>]*\bId="([^"]+)"[^>]*>` with the
first `[^>]*` bound to the first `k` characters of `r1` (the text after
`<Group`).  Mirrors: word boundary before `Id`, the literal `Id="`, the greedy
nonempty run `([^"]+)` up to the next quote, the closing quote, the greedy run
`[^>]*` up to the next `>` and that final `>`. -/
def gOpenTry (r1 : List Char) (k : Nat) : Option (List Char × List Char × List Char) :=
  if k = 0 then
    none  -- the character before `Id` would be the `p` of `<Group`, a word char
  else if isWordChar (r1.getD (k - 1) ' ') then
    none
  else
    (stripPre idLit (r1.drop k)).bind fun r2 =>
    (splitAtChar '"' r2).bind fun vp =>
    if vp.1.isEmpty then none
    else
      (splitAtChar '>' vp.2).bind fun ap =>
      some (gOpenLit ++ r1.take k ++ idLit ++ vp.1 ++ '"' :: (ap.1 ++ ['>']),
            vp.1, ap.2)

/-- Backtracking loop for the greedy `[^>]*` of the scope-open pattern:
try the longest prefix first, then shorter ones. -/
def gOpenLoop (r1 : List Char) : Nat → Option (List Char × List Char × List Char)
  | 0 => none
  | k + 1 => orE (gOpenTry r1 (k + 1)) (gOpenLoop r1 k)

/-- Anchored match of `group_open_re = <Group\b[^>]*\bId="([^"]+)"[^>]*>`.
Returns the matched token, the captured Id value, and the rest of the
string. -/
def matchGroupOpen (s : List Char) : Option (List Char × List Char × List Char) :=
  (stripPre gOpenLit s).bind fun r1 =>
  r1.head?.bind fun c =>
  if isWordChar c then none
  else gOpenLoop r1 (r1.takeWhile (· ≠ '>')).length

/-- Anchored match of `group_close_re = </Group>`. -/
def matchGroupClose (s : List Char) : Option (List Char × List Char) :=
  (stripPre gCloseLit s).map fun r => (gCloseLit, r)

/-- Anchored match of `ls_tag_re = <LocalizedString\b[^>]*?/?>`: the lazy
`[^>]*?` together with `/?>` makes the match end at the first `>` after the
tag name. -/
def matchLsTag (s : List Char) : Option (List Char × List Char) :=
  (stripPre lsLit s).bind fun r1 =>
  r1.head?.bind fun c =>
  if isWordChar c then none
  else
    (splitAtChar '>' r1).bind fun p =>
    some (lsLit ++ p.1 ++ ['>'], p.2)

/-- Anchored match of the token alternation
`(group_open_re|group_close_re|ls_tag_re)`; alternatives are tried in
order, as Python does.  Returns the matched token and the rest. -/
def matchToken (s : List Char) : Option (List Char × List Char) :=
  orE ((matchGroupOpen s).map fun x => (x.1, x.2.2))
    (orE (matchGroupClose s) (matchLsTag s))

/-- Prepend a character to the gap before the first token of a scan result
(or to the trailing text when there is no token). -/
def tokenizeGap (c : Char) (res : List (List Char × List Char) × List Char) :
    List (List Char × List Char) × List Char :=
  match res with
  | ([], tl) => ([], c :: tl)
  | ((g, t) :: ps, tl) => ((c :: g, t) :: ps, tl)

/-- One scan step given the match attempt at the current position and the
continuation for the rest of the text. -/
def tokenizeHead (m : Option (List Char × List Char)) (s : List Char)
    (recur : List Char → List (List Char × List Char) × List Char) :
    List (List Char × List Char) × List Char :=
  match m with
  | some (tok, rest) => (([], tok) :: (recur rest).1, (recur rest).2)
  | none =>
    match s with
    | [] => ([], [])
    | c :: cs => tokenizeGap c (recur cs)

/-- Fuel-driven worker for the token scan (`tokenize` below): each step
either emits the token matched at the current position and resumes after
it, or moves one character into the pending gap.  The fuel only serves
structural termination; `tokenize` supplies enough for it never to run
out. -/
def tokenizeF : Nat → List Char → List (List Char × List Char) × List Char
  | 0, s => ([], s)
  | fuel + 1, s => tokenizeHead (matchToken s) s (tokenizeF fuel)

/-- `re.finditer` over the token alternation: returns the list of
(unmatched gap, token) pairs in document order together with the unmatched
trailing text. -/
def tokenize (s : List Char) : List (List Char × List Char) × List Char :=
  tokenizeF (s.length + 1) s

/-- One anchored attempt of `<lit>([^"]*)"` at the current position:
the literal, then the greedy run `([^"]*)` up to a closing quote.
Returns the captured value and the text after the closing quote. -/
def attrHere (pat s : List Char) : Option (List Char × List Char) :=
  (stripPre pat s).bind fun r2 =>
  (splitAtChar '"' r2).bind fun vp =>
  some (vp.1, vp.2)

/-- `re.search` for a pattern `\b<lit>([^"]*)"` where `lit` ends with an
opening quote (used for `id_attr_re` and `width_attr_re`): scan left to
right; at a position with a word boundary try the literal, then the greedy
run `([^"]*)` up to a closing quote.  A position whose attempt fails is
skipped, exactly as the regex engine moves on.  Returns the text before the
match, the captured value and the text after the closing quote. -/
def findAttr (pat : List Char) (prev : Option Char) :
    List Char → Option (List Char × List Char × List Char)
  | [] => none
  | c :: cs =>
    orE
      ((if boundaryOk prev then attrHere pat (c :: cs) else none).map
        fun vp => ([], vp.1, vp.2))
      ((findAttr pat (some c) cs).map fun q => (c :: q.1, q.2.1, q.2.2))

/-- `re.search` for a bare literal pattern preceded by `\b` (used for the
`\bHeight="` probe): returns the text before the first boundary occurrence
and the text from the occurrence on. -/
def findLit (pat : List Char) (prev : Option Char) :
    List Char → Option (List Char × List Char)
  | [] => none
  | c :: cs =>
    if boundaryOk prev && pat.isPrefixOf (c :: cs) then some ([], c :: cs)
    else (findLit pat (some c) cs).map fun q => (c :: q.1, q.2)

/-- Whether a suffix matches the anchored closer pattern `\s*/?>\s*$`:
a whitespace run, an optional `/`, a `>`, then whitespace to the end
(the pattern is deterministic because neither `/` nor `>` is whitespace). -/
def isCloser (s : List Char) : Bool :=
  match s.dropWhile isSpaceChar with
  | '/' :: '>' :: r => r.all isSpaceChar
  | '>' :: r => r.all isSpaceChar
  | _ => false

/-- `re.search(r'\s*/?>\s*$', tag)`: the leftmost suffix matching the closer
pattern.  Returns the text before the match and the matched suffix. -/
def closerSplit : List Char → Option (List Char × List Char)
  | [] => none
  | c :: cs =>
    if isCloser (c :: cs) then some ([], c :: cs)
    else (closerSplit cs).map fun q => (c :: q.1, q.2)

/-- `id_attr_re.search(tag)` returning only the captured group. -/
def idAttrSearch (tag : List Char) : Option (List Char) :=
  (findAttr idLit none tag).map (·.2.1)

/-- The edit applied to a matched item tag (lines 103-124 of the source):
replace the value of the first `\bWidth="([^"]*)"` match, or failing that
insert `Width="<w>" ` before the first `\bHeight="` occurrence, or failing
that insert ` Width="<w>"` before the closer `\s*/?>\s*$`; if even the
closer probe fails, return the tag unchanged (the source's fallback). -/
def editTag (newW : List Char) (tag : List Char) : List Char :=
  match findAttr widthLit none tag with
  | some (a, _, b) => a ++ widthLit ++ newW ++ '"' :: b
  | none =>
    match findLit heightLit none tag with
    | some (a, b) => a ++ widthLit ++ newW ++ '"' :: ' ' :: b
    | none =>
      match closerSplit tag with
      | none => tag  -- fallback, should not happen on a well-formed tag
      | some (a, b) => a ++ ' ' :: (widthLit ++ newW ++ '"' :: b)

/-- The width lookup table: association list from (scope id, item id) to the
raw width text.  New entries are prepended and `lookupW` takes the first
hit, so the last insertion for a key wins, like the Python dict. -/
abbrev WMap := List ((List Char × List Char) × List Char)

def lookupW : WMap → (List Char × List Char) → Option (List Char)
  | [], _ => none
  | (k, v) :: rest, key => if k = key then some v else lookupW rest key

/-- One step of the reference scanner's token loop (lines 27-47): the state
is the current group and the table built so far. -/
def scanTok (st : Option (List Char) × WMap) (tok : List Char) :
    Option (List Char) × WMap :=
  match matchGroupOpen tok with
  | some (_, gid, _) => (some gid, st.2)
  | none =>
    match matchGroupClose tok with
    | some _ => (none, st.2)
    | none =>
      match matchLsTag tok, st.1 with
      | some _, some g =>
        match idAttrSearch tok with
        | none => st
        | some locId =>
          match (findAttr widthLit none tok).map (·.2.1) with
          | none => st
          | some w => (some g, ((g, locId), w) :: st.2)
      | _, _ => st

/-- `build_width_map`: scan the reference text's tokens in order. -/
def build_width_map (ref : List Char) : WMap :=
  (((tokenize ref).1.map (·.2)).foldl scanTok (none, [])).2

/-- One step of the patcher's token loop (lines 79-133): given the current
group, produce the new group, the text emitted for this token, and the
count increment. -/
def patchTok (m : WMap) (g : Option (List Char)) (tok : List Char) :
    Option (List Char) × List Char × Nat :=
  match matchGroupOpen tok with
  | some (_, gid, _) => (some gid, tok, 0)
  | none =>
    match matchGroupClose tok with
    | some _ => (none, tok, 0)
    | none =>
      match matchLsTag tok, g with
      | some _, some gs =>
        match idAttrSearch tok with
        | none => (g, tok, 0)
        | some locId =>
          match lookupW m (gs, locId) with
          | none => (g, tok, 0)
          | some w => (g, editTag w tok, 1)
      | _, _ => (g, tok, 0)

/-- The patcher's main loop over (gap, token) pairs: emit each gap verbatim,
process each token, and accumulate the update count. -/
def patchPairs (m : WMap) :
    Option (List Char) → List (List Char × List Char) → List Char × Nat
  | _, [] => ([], 0)
  | g, (gap, tok) :: rest =>
    let r := patchTok m g tok
    let rr := patchPairs m r.1 rest
    (gap ++ r.2.1 ++ rr.1, r.2.2 + rr.2)

/-- `apply_widths_surgically` as a pure function: returns the output text
and the reported update count. -/
def apply_widths (m : WMap) (src : List Char) : List Char × Nat :=
  let tk := tokenize src
  let pr := patchPairs m none tk.1
  (pr.1 ++ tk.2, pr.2)

/-- A line printed to standard output by the program: either the usage
message (`Usage: python update_widths_preserve.py source.xml reference.xml
output.xml`) or the summary `Updated <count> width(s). Saved to: <path>`. -/
inductive OutLine : Type
  | usage : OutLine
  | summary : Nat → String → OutLine
deriving DecidableEq

/-- Observable behaviour of one program run: stdout lines, exit code, the
files opened for reading (in order) and the files written with their
contents. -/
structure RunTrace : Type where
  stdout : List OutLine
  exitCode : Nat
  reads : List String
  writes : List (String × List Char)
deriving DecidableEq

/-- `main` (lines 145-152): with exactly three positional arguments (four
entries in `sys.argv`, whose head is the program name) it reads the
reference, then the source, writes the output and prints a summary;
with any other argument count it prints the usage message and exits
with status 1 before touching any file.  `fs` maps a path to the file's
content. -/
def mainModel (fs : String → List Char) (argv : List String) : RunTrace :=
  match argv with
  | [_, source, reference, output] =>
    let m := build_width_map (fs reference)
    let r := apply_widths m (fs source)
    { stdout := [OutLine.summary r.2 output], exitCode := 0,
      reads := [reference, source], writes := [(output, r.1)] }
  | _ =>
    { stdout := [OutLine.usage], exitCode := 1, reads := [], writes := [] }

/-- Text of a width attribute `Width="<v>"`. -/
def widthAttrText (v : List Char) : List Char :=
  widthLit ++ v ++ ['"']

/-- How a token changes the tracked scope, independently of the table:
a scope-open token installs its captured Id, a scope-close token clears
the scope, anything else leaves it unchanged.  Both the scanner and the
patcher thread their scope this way. -/
def scopeStep (g : Option (List Char)) (tok : List Char) : Option (List Char) :=
  match matchGroupOpen tok with
  | some (_, gid, _) => some gid
  | none =>
    match matchGroupClose tok with
    | some _ => none
    | none => g

/-- Whether the patcher performs a width replacement or insertion on this
token under the current scope: the token is an item tag (and not a scope
tag), the scope is set, the tag has an Id and the (scope, id) key is in
the table. -/
def updatedTag (m : WMap) (g : Option (List Char)) (tok : List Char) : Bool :=
  match matchGroupOpen tok, matchGroupClose tok, matchLsTag tok, g with
  | none, none, some _, some gs =>
    match idAttrSearch tok with
    | some locId => (lookupW m (gs, locId)).isSome
    | none => false
  | _, _, _, _ => false

/-- The item tokens, in document order, on which the patcher performs an
edit (threading the scope like the patcher does). -/
def editedToks (m : WMap) : Option (List Char) → List (List Char) → List (List Char)
  | _, [] => []
  | g, tok :: rest =>
    (if updatedTag m g tok then [tok] else []) ++
      editedToks m (scopeStep g tok) rest

/-- The table entry contributed by one reference token under the current
scope: a single `((scope, id), width)` record when the token is an item tag
with both attributes seen inside a scope, nothing otherwise. -/
def tokContribution (g : Option (List Char)) (tok : List Char) :
    List ((List Char × List Char) × List Char) :=
  match matchGroupOpen tok, matchGroupClose tok, matchLsTag tok, g with
  | none, none, some _, some gs =>
    match idAttrSearch tok, (findAttr widthLit none tok).map (·.2.1) with
    | some locId, some w => [((gs, locId), w)]
    | _, _ => []
  | _, _, _, _ => []

/-- All `((scope, id), width)` records contributed by a reference token
stream, in document order. -/
def scanRecs : Option (List Char) → List (List Char) →
    List ((List Char × List Char) × List Char)
  | _, [] => []
  | g, tok :: rest => tokContribution g tok ++ scanRecs (scopeStep g tok) rest

/-- The value of the last record for `key` in a record list (the last-seen
value wins), `none` when no record carries the key. -/
def lastVal (recs : List ((List Char × List Char) × List Char))
    (key : List Char × List Char) : Option (List Char) :=
  match recs with
  | [] => none
  | (k, v) :: rest =>
    orE (lastVal rest key) (if k = key then some v else none)

/-- Output text related to a source text by width-only surgery: every byte
of the source is copied in order, except that the value of a
`Width="<v>"` occurrence may be replaced and that a new width attribute
(`Width="<w>" ` or ` Width="<w>"`) may be inserted.  This is the shape of
every edit the patcher makes. -/
inductive WidthEditOnly : List Char → List Char → Prop
  | nil : WidthEditOnly [] []
  | copy (c : Char) {a b : List Char} :
      WidthEditOnly a b → WidthEditOnly (c :: a) (c :: b)
  | replaceW (v w : List Char) {a b : List Char} :
      WidthEditOnly a b →
      WidthEditOnly (widthLit ++ v ++ '"' :: a) (widthLit ++ w ++ '"' :: b)
  | insertWidthSpace (w : List Char) {a b : List Char} :
      WidthEditOnly a b →
      WidthEditOnly a (widthLit ++ w ++ '"' :: ' ' :: b)
  | insertSpaceWidth (w : List Char) {a b : List Char} :
      WidthEditOnly a b →
      WidthEditOnly a (' ' :: (widthLit ++ w ++ '"' :: b))

/-- Concatenation of the (gap, token) pairs of a scan result. -/
def pairsText : List (List Char × List Char) → List Char
  | [] => []
  | (g, t) :: ps => g ++ t ++ pairsText ps

/-- The last character of `a` when `a` is nonempty, otherwise `prev`:
the character preceding position `|a|` when scanning `a ++ b` starting
with preceding character `prev`. -/
def lastOr (prev : Option Char) (a : List Char) : Option Char :=
  match a.getLast? with
  | some c => some c
  | none => prev

/-- Concrete data for the update-count boundary case: the source item
already carries exactly the width stored in the table, so the replacement
rewrites the same text. -/
def noopSrc : List Char :=
  "<Group Id=\"G\"><LocalizedString Id=\"a\" Width=\"50\"/></Group>".toList

def noopMap : WMap := [(("G".toList, "a".toList), "50".toList)]

/-- The head of `l` exists and is not a word character. -/
def headNonWord (l : List Char) : Bool :=
  match l.head? with
  | some c => !isWordChar c
  | none => false

/-- The last character of `l` (blank for an empty `l`) is not a word
character. -/
def lastNonWord (l : List Char) : Bool :=
  !isWordChar (l.getD (l.length - 1) ' ')

/-- A gap between tokens is well-delimited when it contains none of the
three tag-opening literals, so no token match can begin inside it in
either pass. -/
def gapGood (gap : List Char) : Bool :=
  occCount gOpenLit gap == 0 && occCount gCloseLit gap == 0 &&
    occCount lsLit gap == 0

/-- A token is well-delimited for the patcher under scope `g`: it matches
its own alternative exactly (consuming the whole token), scope-open tokens
carry a unique `Id="` occurrence, and if the patcher edits the token then
the edit is stable — the edited tag re-tokenizes to itself, keeps its Id,
and editing it again reproduces it byte for byte. -/
def goodTok (m : WMap) (g : Option (List Char)) (tok : List Char) : Bool :=
  match matchGroupOpen tok with
  | some (t, _, rest) =>
    t == tok && rest.isEmpty && occCount idLit tok == 1
  | none =>
    match matchGroupClose tok with
    | some _ => tok == gCloseLit
    | none =>
      match matchLsTag tok with
      | some (t, rest) =>
        t == tok && rest.isEmpty &&
        (match g, idAttrSearch tok with
         | some gs, some locId =>
           (match lookupW m (gs, locId) with
            | some w =>
              (matchLsTag (editTag w tok) == some (editTag w tok, [])) &&
              (idAttrSearch (editTag w tok) == some locId) &&
              (editTag w (editTag w tok) == editTag w tok)
            | none => true)
         | _, _ => true)
      | none => false

/-- All gaps and tokens of a scan are well-delimited, threading the scope
like the patcher does. -/
def goodPairs (m : WMap) :
    Option (List Char) → List (List Char × List Char) → Bool
  | _, [] => true
  | g, (gap, tok) :: rest =>
    gapGood gap && goodTok m g tok && goodPairs m (scopeStep g tok) rest

/-- The source document is well-delimited for the table `m`. -/
def GoodSource (m : WMap) (src : List Char) : Bool :=
  goodPairs m none (tokenize src).1

/-- The (gap, emitted token) pairs of one patcher pass. -/
def outPairs (m : WMap) :
    Option (List Char) → List (List Char × List Char) →
      List (List Char × List Char)
  | _, [] => []
  | g, (gap, tok) :: rest =>
    (gap, (patchTok m g tok).2.1) :: outPairs m (scopeStep g tok) rest

/-- Concrete data refuting unconditional idempotence: the source item's
Width value contains `>`, legal in an XML attribute value, which truncates
the item token before the attribute's closing quote. -/
def idemSrc : List Char :=
  "<Group Id=\"G\"><LocalizedString Id=\"a\" Width=\"x>y\"/></Group>".toList

def idemMap : WMap := [(("G".toList, "a".toList), "50".toList)]

/-- Concrete data for the idempotence witness: the spec's own example. -/
def exSrc3 : List Char :=
  "<Group Id=\"Dialog1\"><LocalizedString Id=\"OkButton\" Height=\"20\"/></Group>".toList

def exMap3 : WMap := [(("Dialog1".toList, "OkButton".toList), "50".toList)]

/-- Concrete data refuting unconditional scope registration.  This tag
carries the Id attribute `G` and a further `data-Id="x"` attribute: the
greedy `[^>]*` of the scope-open pattern backtracks from the right, so
the capture comes from the rightmost word-boundary-preceded `Id="`, the
one inside `data-Id`. -/
def c7tagA : List Char := "<Group Id=\"G\" data-Id=\"x\">".toList

/-- Second refuting tag: it carries the Id attribute `G` after an
attribute value containing `>`, which the scope-open pattern's `[^>]*`
cannot cross, so the tag never matches as a token at all. -/
def c7tagB : List Char := "<Group a=\"x>y\" Id=\"G\">".toList

theorem orE_eq_some {α : Type} {a b : Option α} {x : α} :
    orE a b = some x ↔ a = some x ∨ (a = none ∧ b = some x) := by
  cases a <;> simp [orE]

theorem orE_eq_none {α : Type} {a b : Option α} :
    orE a b = none ↔ a = none ∧ b = none := by
  cases a <;> simp [orE]

theorem stripPre_eq_append {p s r : List Char} (h : stripPre p s = some r) :
    s = p ++ r := by
  induction p generalizing s with
  | nil =>
    simp only [stripPre, Option.some.injEq] at h
    simpa using h
  | cons a ps ih =>
    cases s with
    | nil => simp [stripPre] at h
    | cons c cs =>
      by_cases hac : a = c
      · subst hac
        simp only [stripPre, if_pos rfl] at h
        simpa using ih h
      · simp [stripPre, hac] at h

theorem stripPre_append {p s r : List Char} (t : List Char)
    (h : stripPre p s = some r) :
    stripPre p (s ++ t) = some (r ++ t) := by
  induction p generalizing s with
  | nil =>
    simp only [stripPre, Option.some.injEq] at h
    subst h
    simp [stripPre]
  | cons a ps ih =>
    cases s with
    | nil => simp [stripPre] at h
    | cons c cs =>
      by_cases hac : a = c
      · subst hac
        simp only [stripPre, if_pos rfl] at h
        have := ih h
        simpa [stripPre] using this
      · simp [stripPre, hac] at h

theorem dropWhile_head_false {p : Char → Bool} {s : List Char} {x : Char}
    {xs : List Char} (h : s.dropWhile p = x :: xs) : p x = false := by
  induction s with
  | nil => simp [List.dropWhile] at h
  | cons a as ih =>
    by_cases hp : p a = true
    · simp only [List.dropWhile, hp] at h
      exact ih h
    · have hp' : p a = false := by simpa using hp
      simp only [List.dropWhile, hp'] at h
      cases h
      exact hp'

theorem splitAtChar_decomp {c : Char} {s a b : List Char}
    (h : splitAtChar c s = some (a, b)) :
    s = a ++ c :: b ∧ a = s.takeWhile (· ≠ c) := by
  unfold splitAtChar at h
  cases hd : s.dropWhile (· ≠ c) with
  | nil => rw [hd] at h; simp at h
  | cons x rest =>
    rw [hd] at h
    simp only [Option.some.injEq, Prod.mk.injEq] at h
    obtain ⟨rfl, rfl⟩ := h
    have hx : x = c := by
      have := dropWhile_head_false hd
      simpa using this
    subst hx
    constructor
    · conv_lhs => rw [← List.takeWhile_append_dropWhile (p := (· ≠ x)) (l := s)]
      rw [hd]
    · rfl

theorem gOpenTry_decomp {r1 : List Char} {k : Nat} {t cap rest : List Char}
    (h : gOpenTry r1 k = some (t, cap, rest)) :
    gOpenLit ++ r1 = t ++ rest ∧ t ≠ [] := by
  unfold gOpenTry at h
  by_cases hk : k = 0
  · rw [if_pos hk] at h; exact absurd h (by simp)
  rw [if_neg hk] at h
  by_cases hw : isWordChar (r1.getD (k - 1) ' ') = true
  · rw [if_pos hw] at h; exact absurd h (by simp)
  rw [if_neg hw] at h
  rw [Option.bind_eq_some] at h
  obtain ⟨r2, hstrip, h⟩ := h
  rw [Option.bind_eq_some] at h
  obtain ⟨⟨v, r3⟩, hsp, h⟩ := h
  by_cases hv : (v : List Char).isEmpty
  · rw [if_pos hv] at h; exact absurd h (by simp)
  rw [if_neg hv] at h
  rw [Option.bind_eq_some] at h
  obtain ⟨⟨a2, r4⟩, hsp2, h⟩ := h
  simp only [Option.some.injEq, Prod.mk.injEq] at h
  obtain ⟨rfl, rfl, rfl⟩ := h
  refine ⟨?_, by simp [gOpenLit]⟩
  have e1 : r1 = r1.take k ++ r1.drop k := (List.take_append_drop k r1).symm
  have e2 : r1.drop k = idLit ++ r2 := stripPre_eq_append hstrip
  have e3 : r2 = v ++ '"' :: r3 := (splitAtChar_decomp hsp).1
  have e4 : r3 = a2 ++ '>' :: r4 := (splitAtChar_decomp hsp2).1
  conv_lhs => rw [e1, e2, e3, e4]
  simp

theorem gOpenLoop_decomp {r1 : List Char} {n : Nat} {t cap rest : List Char}
    (h : gOpenLoop r1 n = some (t, cap, rest)) :
    gOpenLit ++ r1 = t ++ rest ∧ t ≠ [] := by
  induction n with
  | zero => simp [gOpenLoop] at h
  | succ k ih =>
    unfold gOpenLoop at h
    rw [orE_eq_some] at h
    rcases h with h | ⟨_, h⟩
    · exact gOpenTry_decomp h
    · exact ih h

theorem matchGroupOpen_decomp {s t cap rest : List Char}
    (h : matchGroupOpen s = some (t, cap, rest)) :
    s = t ++ rest ∧ t ≠ [] := by
  unfold matchGroupOpen at h
  rw [Option.bind_eq_some] at h
  obtain ⟨r1, hstrip, h⟩ := h
  rw [Option.bind_eq_some] at h
  obtain ⟨c, _, h⟩ := h
  by_cases hw : isWordChar c = true
  · rw [if_pos hw] at h; exact absurd h (by simp)
  rw [if_neg hw] at h
  have := gOpenLoop_decomp h
  exact ⟨by rw [stripPre_eq_append hstrip, this.1], this.2⟩

theorem matchGroupClose_decomp {s t rest : List Char}
    (h : matchGroupClose s = some (t, rest)) :
    s = t ++ rest ∧ t ≠ [] := by
  unfold matchGroupClose at h
  rw [Option.map_eq_some'] at h
  obtain ⟨r0, hstrip, h⟩ := h
  simp only [Prod.mk.injEq] at h
  obtain ⟨rfl, rfl⟩ := h
  exact ⟨stripPre_eq_append hstrip, by simp [gCloseLit]⟩

theorem matchLsTag_decomp {s t rest : List Char}
    (h : matchLsTag s = some (t, rest)) :
    s = t ++ rest ∧ t ≠ [] := by
  unfold matchLsTag at h
  rw [Option.bind_eq_some] at h
  obtain ⟨r1, hstrip, h⟩ := h
  rw [Option.bind_eq_some] at h
  obtain ⟨c, _, h⟩ := h
  by_cases hw : isWordChar c = true
  · rw [if_pos hw] at h; exact absurd h (by simp)
  rw [if_neg hw] at h
  rw [Option.bind_eq_some] at h
  obtain ⟨⟨run, r2⟩, hsp, h⟩ := h
  simp only [Option.some.injEq, Prod.mk.injEq] at h
  obtain ⟨rfl, rfl⟩ := h
  constructor
  · rw [stripPre_eq_append hstrip, (splitAtChar_decomp hsp).1]
    simp
  · simp [lsLit]

theorem matchToken_decomp {s t rest : List Char}
    (h : matchToken s = some (t, rest)) :
    s = t ++ rest ∧ t ≠ [] := by
  unfold matchToken at h
  rw [orE_eq_some] at h
  rcases h with h | ⟨_, h⟩
  · rw [Option.map_eq_some'] at h
    obtain ⟨⟨t0, cap0, r0⟩, hg, h⟩ := h
    simp only [Prod.mk.injEq] at h
    obtain ⟨rfl, rfl⟩ := h
    exact matchGroupOpen_decomp hg
  · rw [orE_eq_some] at h
    rcases h with h | ⟨_, h⟩
    · exact matchGroupClose_decomp h
    · exact matchLsTag_decomp h

theorem matchToken_rest_lt {s t rest : List Char}
    (h : matchToken s = some (t, rest)) : rest.length < s.length := by
  obtain ⟨hs, ht⟩ := matchToken_decomp h
  rw [hs, List.length_append]
  have : 0 < t.length := List.length_pos.mpr ht
  omega

theorem tokenizeF_fuel {s : List Char} {f1 f2 : Nat}
    (h1 : s.length < f1) (h2 : s.length < f2) :
    tokenizeF f1 s = tokenizeF f2 s := by
  induction f1 generalizing s f2 with
  | zero => omega
  | succ f ih =>
    cases f2 with
    | zero => omega
    | succ f2 =>
      show tokenizeHead (matchToken s) s (tokenizeF f) =
        tokenizeHead (matchToken s) s (tokenizeF f2)
      cases hm : matchToken s with
      | some p =>
        obtain ⟨tok, rest⟩ := p
        have hr := matchToken_rest_lt hm
        have : tokenizeF f rest = tokenizeF f2 rest := by
          apply ih <;> omega
        simp [tokenizeHead, this]
      | none =>
        cases s with
        | nil => rfl
        | cons c cs =>
          have hc : cs.length < f := by
            have := h1; simp at this; omega
          have hc2 : cs.length < f2 := by
            have := h2; simp at this; omega
          have : tokenizeF f cs = tokenizeF f2 cs := ih hc hc2
          simp [tokenizeHead, this]

/-- The one-step unfolding of `tokenize`, usable as a recursion principle. -/
theorem tokenize_eq (s : List Char) :
    tokenize s = tokenizeHead (matchToken s) s tokenize := by
  show tokenizeF (s.length + 1) s = _
  rw [tokenizeF]
  cases hm : matchToken s with
  | some p =>
    obtain ⟨tok, rest⟩ := p
    have hr := matchToken_rest_lt hm
    have : tokenizeF s.length rest = tokenizeF (rest.length + 1) rest := by
      apply tokenizeF_fuel <;> omega
    simp only [tokenizeHead, this]
    rfl
  | none =>
    cases s with
    | nil => rfl
    | cons c cs =>
      have : tokenizeF (c :: cs).length cs = tokenizeF (cs.length + 1) cs := by
        apply tokenizeF_fuel <;> simp
      simp only [tokenizeHead, this]
      rfl

theorem attrHere_decomp {pat s v b : List Char}
    (h : attrHere pat s = some (v, b)) :
    s = pat ++ v ++ '"' :: b := by
  unfold attrHere at h
  rw [Option.bind_eq_some] at h
  obtain ⟨r2, hstrip, h⟩ := h
  rw [Option.bind_eq_some] at h
  obtain ⟨⟨v0, r3⟩, hsp, h⟩ := h
  simp only [Option.some.injEq, Prod.mk.injEq] at h
  obtain ⟨rfl, rfl⟩ := h
  rw [stripPre_eq_append hstrip, (splitAtChar_decomp hsp).1]
  simp

theorem findAttr_decomp {pat : List Char} {prev : Option Char}
    {s a v b : List Char} (h : findAttr pat prev s = some (a, v, b)) :
    s = a ++ pat ++ v ++ '"' :: b := by
  induction s generalizing prev a with
  | nil => simp [findAttr] at h
  | cons c cs ih =>
    unfold findAttr at h
    rw [orE_eq_some] at h
    rcases h with h | ⟨_, h⟩
    · rw [Option.map_eq_some'] at h
      obtain ⟨⟨v0, b0⟩, hop, h⟩ := h
      simp only [Prod.mk.injEq] at h
      obtain ⟨rfl, rfl, rfl⟩ := h
      by_cases hb : boundaryOk prev = true
      · rw [if_pos hb] at hop
        simpa using attrHere_decomp hop
      · rw [if_neg hb] at hop
        exact absurd hop (by simp)
    · rw [Option.map_eq_some'] at h
      obtain ⟨⟨a0, v0, b0⟩, hrec, h⟩ := h
      simp only [Prod.mk.injEq] at h
      obtain ⟨rfl, rfl, rfl⟩ := h
      simpa using congrArg (c :: ·) (ih hrec)

theorem findLit_decomp {pat : List Char} {prev : Option Char}
    {s a b : List Char} (h : findLit pat prev s = some (a, b)) :
    s = a ++ b ∧ pat.isPrefixOf b := by
  induction s generalizing prev a with
  | nil => simp [findLit] at h
  | cons c cs ih =>
    unfold findLit at h
    by_cases hc : (boundaryOk prev && pat.isPrefixOf (c :: cs)) = true
    · rw [if_pos hc] at h
      simp only [Option.some.injEq, Prod.mk.injEq] at h
      obtain ⟨rfl, rfl⟩ := h
      exact ⟨rfl, (Bool.and_eq_true _ _ |>.mp hc).2⟩
    · rw [if_neg hc] at h
      rw [Option.map_eq_some'] at h
      obtain ⟨⟨a0, b0⟩, hrec, h⟩ := h
      simp only [Prod.mk.injEq] at h
      obtain ⟨rfl, rfl⟩ := h
      have := ih hrec
      exact ⟨by simpa using congrArg (c :: ·) this.1, this.2⟩

theorem closerSplit_decomp {s a b : List Char}
    (h : closerSplit s = some (a, b)) :
    s = a ++ b ∧ isCloser b = true := by
  induction s generalizing a with
  | nil => simp [closerSplit] at h
  | cons c cs ih =>
    unfold closerSplit at h
    by_cases hc : isCloser (c :: cs) = true
    · rw [if_pos hc] at h
      simp only [Option.some.injEq, Prod.mk.injEq] at h
      obtain ⟨rfl, rfl⟩ := h
      exact ⟨rfl, hc⟩
    · rw [if_neg hc] at h
      rw [Option.map_eq_some'] at h
      obtain ⟨⟨a0, b0⟩, hrec, h⟩ := h
      simp only [Prod.mk.injEq] at h
      obtain ⟨rfl, rfl⟩ := h
      have := ih hrec
      exact ⟨by simpa using congrArg (c :: ·) this.1, this.2⟩

theorem widthEditOnly_refl (l : List Char) : WidthEditOnly l l := by
  induction l with
  | nil => exact WidthEditOnly.nil
  | cons c cs ih => exact WidthEditOnly.copy c ih

theorem widthEditOnly_append {a b c d : List Char}
    (h1 : WidthEditOnly a b) (h2 : WidthEditOnly c d) :
    WidthEditOnly (a ++ c) (b ++ d) := by
  induction h1 with
  | nil => simpa using h2
  | copy x h ih => simpa using WidthEditOnly.copy x ih
  | replaceW v w h ih =>
    simpa [List.append_assoc] using WidthEditOnly.replaceW v w ih
  | insertWidthSpace w h ih =>
    simpa [List.append_assoc] using WidthEditOnly.insertWidthSpace w ih
  | insertSpaceWidth w h ih =>
    simpa [List.append_assoc] using WidthEditOnly.insertSpaceWidth w ih

theorem widthEditOnly_copy_prefix (p : List Char) {a b : List Char}
    (h : WidthEditOnly a b) : WidthEditOnly (p ++ a) (p ++ b) :=
  widthEditOnly_append (widthEditOnly_refl p) h

/-- Every edit of a matched tag only rewrites a width value or inserts a
width attribute: the tag and its edited form are in the
`WidthEditOnly` relation. -/
theorem editTag_widthEditOnly (w tag : List Char) :
    WidthEditOnly tag (editTag w tag) := by
  unfold editTag
  cases hfa : findAttr widthLit none tag with
  | some p =>
    obtain ⟨a, v, b⟩ := p
    have hd := findAttr_decomp hfa
    rw [hd]
    have : WidthEditOnly (widthLit ++ v ++ '"' :: b) (widthLit ++ w ++ '"' :: b) :=
      WidthEditOnly.replaceW v w (widthEditOnly_refl b)
    simpa [List.append_assoc] using widthEditOnly_copy_prefix a this
  | none =>
    cases hfl : findLit heightLit none tag with
    | some p =>
      obtain ⟨a, b⟩ := p
      have hd := (findLit_decomp hfl).1
      rw [hd]
      have : WidthEditOnly b (widthLit ++ w ++ '"' :: ' ' :: b) :=
        WidthEditOnly.insertWidthSpace w (widthEditOnly_refl b)
      simpa [List.append_assoc] using widthEditOnly_copy_prefix a this
    | none =>
      cases hcs : closerSplit tag with
      | some p =>
        obtain ⟨a, b⟩ := p
        have hd := (closerSplit_decomp hcs).1
        rw [hd]
        have : WidthEditOnly b (' ' :: (widthLit ++ w ++ '"' :: b)) :=
          WidthEditOnly.insertSpaceWidth w (widthEditOnly_refl b)
        simpa [List.append_assoc] using widthEditOnly_copy_prefix a this
      | none => exact widthEditOnly_refl tag

theorem tokenize_nil : tokenize [] = ([], []) := rfl

theorem tokenize_cons_match {s tok rest : List Char}
    (h : matchToken s = some (tok, rest)) :
    tokenize s = (([], tok) :: (tokenize rest).1, (tokenize rest).2) := by
  rw [tokenize_eq, h]
  rfl

theorem tokenize_cons_gap {c : Char} {cs : List Char}
    (h : matchToken (c :: cs) = none) :
    tokenize (c :: cs) = tokenizeGap c (tokenize cs) := by
  rw [tokenize_eq, h]
  rfl

theorem tokenize_join_aux :
    ∀ n s, s.length ≤ n → pairsText (tokenize s).1 ++ (tokenize s).2 = s := by
  intro n
  induction n with
  | zero =>
    intro s hs
    have : s = [] := by
      cases s with
      | nil => rfl
      | cons c cs => simp at hs
    subst this
    rw [tokenize_nil]
    simp [pairsText]
  | succ n ih =>
    intro s hs
    cases hm : matchToken s with
    | some p =>
      obtain ⟨tok, rest⟩ := p
      have hlt := matchToken_rest_lt hm
      have hr : rest.length ≤ n := by omega
      rw [tokenize_cons_match hm]
      simp only [pairsText]
      rw [List.nil_append, List.append_assoc, ih rest hr]
      exact ((matchToken_decomp hm).1).symm
    | none =>
      cases s with
      | nil => rw [tokenize_nil]; simp [pairsText]
      | cons c cs =>
        have hr : cs.length ≤ n := by simpa using Nat.le_of_succ_le_succ hs
        have hcs := ih cs hr
        rw [tokenize_cons_gap hm]
        rcases htk : tokenize cs with ⟨ps, tl⟩
        rw [htk] at hcs
        cases ps with
        | nil =>
          simp only [pairsText, List.nil_append] at hcs
          simp [tokenizeGap, pairsText, hcs]
        | cons p ps2 =>
          obtain ⟨g, t⟩ := p
          simp only [pairsText] at hcs
          simp only [tokenizeGap, pairsText, List.cons_append, List.append_assoc] at hcs ⊢
          rw [hcs]

/-- The gaps, tokens and trailing text of the scan reassemble the input. -/
theorem tokenize_join (s : List Char) :
    pairsText (tokenize s).1 ++ (tokenize s).2 = s :=
  tokenize_join_aux s.length s le_rfl

theorem orE_none_right {α : Type} (a : Option α) : orE a none = a := by
  cases a <;> simp [orE]

theorem orE_assoc {α : Type} (a b c : Option α) :
    orE (orE a b) c = orE a (orE b c) := by
  cases a <;> simp [orE]

theorem patchTok_state (m : WMap) (g : Option (List Char)) (tok : List Char) :
    (patchTok m g tok).1 = scopeStep g tok := by
  unfold patchTok scopeStep
  cases hg : matchGroupOpen tok with
  | some p => obtain ⟨t0, gid, r0⟩ := p; simp
  | none =>
    cases hc : matchGroupClose tok with
    | some p => simp
    | none =>
      cases hl : matchLsTag tok with
      | some p =>
        cases g with
        | none => simp
        | some gs =>
          cases hid : idAttrSearch tok with
          | none => simp
          | some locId =>
            cases hlk : lookupW m (gs, locId) with
            | none => simp [hlk]
            | some w => simp [hlk]
      | none => cases g <;> simp

theorem patchTok_count (m : WMap) (g : Option (List Char)) (tok : List Char) :
    (patchTok m g tok).2.2 = if updatedTag m g tok then 1 else 0 := by
  unfold patchTok updatedTag
  cases hg : matchGroupOpen tok with
  | some p => obtain ⟨t0, gid, r0⟩ := p; simp
  | none =>
    cases hc : matchGroupClose tok with
    | some p => simp
    | none =>
      cases hl : matchLsTag tok with
      | some p =>
        cases g with
        | none => simp
        | some gs =>
          cases hid : idAttrSearch tok with
          | none => simp
          | some locId =>
            cases hlk : lookupW m (gs, locId) with
            | none => simp [hlk]
            | some w => simp [hlk]
      | none => cases g <;> simp

theorem patchTok_out_cases (m : WMap) (g : Option (List Char)) (tok : List Char) :
    (patchTok m g tok).2.1 = tok ∨ ∃ w, (patchTok m g tok).2.1 = editTag w tok := by
  unfold patchTok
  cases hg : matchGroupOpen tok with
  | some p => obtain ⟨t0, gid, r0⟩ := p; left; simp
  | none =>
    cases hc : matchGroupClose tok with
    | some p => left; simp
    | none =>
      cases hl : matchLsTag tok with
      | some p =>
        cases g with
        | none => left; simp
        | some gs =>
          cases hid : idAttrSearch tok with
          | none => left; simp
          | some locId =>
            cases hlk : lookupW m (gs, locId) with
            | none => left; simp [hlk]
            | some w => right; exact ⟨w, by simp [hlk]⟩
      | none => cases g <;> (left; simp)

theorem patchPairs_count (m : WMap) :
    ∀ (L : List (List Char × List Char)) (g : Option (List Char)),
      (patchPairs m g L).2 = (editedToks m g (L.map (·.2))).length := by
  intro L
  induction L with
  | nil => intro g; simp [patchPairs, editedToks]
  | cons p rest ih =>
    intro g
    obtain ⟨gap, tok⟩ := p
    simp only [patchPairs, List.map_cons, editedToks, List.length_append]
    rw [patchTok_count, patchTok_state, ih]
    by_cases hu : updatedTag m g tok <;> simp [hu]

theorem patchPairs_widthEditOnly (m : WMap) :
    ∀ (L : List (List Char × List Char)) (g : Option (List Char)),
      WidthEditOnly (pairsText L) (patchPairs m g L).1 := by
  intro L
  induction L with
  | nil => intro g; exact WidthEditOnly.nil
  | cons p rest ih =>
    intro g
    obtain ⟨gap, tok⟩ := p
    simp only [patchPairs, pairsText]
    have htok : WidthEditOnly tok (patchTok m g tok).2.1 := by
      rcases patchTok_out_cases m g tok with h | ⟨w, h⟩
      · rw [h]; exact widthEditOnly_refl tok
      · rw [h]; exact editTag_widthEditOnly w tok
    have := widthEditOnly_copy_prefix gap
      (widthEditOnly_append htok (ih (patchTok m g tok).1))
    simpa [List.append_assoc] using this

theorem scanTok_eq (g : Option (List Char)) (m : WMap) (tok : List Char) :
    scanTok (g, m) tok = (scopeStep g tok, tokContribution g tok ++ m) := by
  unfold scanTok scopeStep tokContribution
  cases hg : matchGroupOpen tok with
  | some p => obtain ⟨t0, gid, r0⟩ := p; simp
  | none =>
    cases hc : matchGroupClose tok with
    | some p => simp
    | none =>
      cases hl : matchLsTag tok with
      | some p =>
        cases g with
        | none => simp
        | some gs =>
          cases hid : idAttrSearch tok with
          | none => simp
          | some locId =>
            cases hw : (findAttr widthLit none tok).map (·.2.1) with
            | none => simp
            | some w => simp
      | none => cases g <;> simp

theorem lookupW_append (e m : WMap) (key : List Char × List Char) :
    lookupW (e ++ m) key = orE (lookupW e key) (lookupW m key) := by
  induction e with
  | nil => simp [lookupW, orE]
  | cons p rest ih =>
    obtain ⟨k, v⟩ := p
    by_cases hk : k = key
    · simp [lookupW, hk, orE]
    · simp [lookupW, hk, orE, ih]

theorem lastVal_append (e recs : List ((List Char × List Char) × List Char))
    (key : List Char × List Char) :
    lastVal (e ++ recs) key = orE (lastVal recs key) (lastVal e key) := by
  induction e with
  | nil => simp [lastVal, orE_none_right]
  | cons p rest ih =>
    obtain ⟨k, v⟩ := p
    show orE (lastVal (rest ++ recs) key) _ = _
    rw [ih, orE_assoc]
    rfl

theorem tokContribution_short (g : Option (List Char)) (tok : List Char) :
    tokContribution g tok = [] ∨
      ∃ e, tokContribution g tok = [e] := by
  unfold tokContribution
  cases hg : matchGroupOpen tok with
  | some p => obtain ⟨t0, gid, r0⟩ := p; left; simp
  | none =>
    cases hc : matchGroupClose tok with
    | some p => left; simp
    | none =>
      cases hl : matchLsTag tok with
      | some p =>
        cases g with
        | none => left; simp
        | some gs =>
          cases hid : idAttrSearch tok with
          | none => left; simp
          | some locId =>
            cases hw : (findAttr widthLit none tok).map (·.2.1) with
            | none => left; simp
            | some w => right; exact ⟨((gs, locId), w), by simp⟩
      | none => cases g <;> (left; simp)

theorem lastVal_short_eq_lookup {e : List ((List Char × List Char) × List Char)}
    (h : e = [] ∨ ∃ x, e = [x]) (key : List Char × List Char) :
    lastVal e key = lookupW e key := by
  rcases h with rfl | ⟨⟨k, v⟩, rfl⟩
  · rfl
  · by_cases hk : k = key <;> simp [lastVal, lookupW, hk, orE]

theorem scan_fold_lookup (key : List Char × List Char) :
    ∀ (toks : List (List Char)) (g : Option (List Char)) (m0 : WMap),
      lookupW ((toks.foldl scanTok (g, m0)).2) key =
        orE (lastVal (scanRecs g toks) key) (lookupW m0 key) := by
  intro toks
  induction toks with
  | nil => intro g m0; simp [scanRecs, lastVal, orE]
  | cons tok rest ih =>
    intro g m0
    rw [List.foldl_cons, scanTok_eq, ih, scanRecs, lastVal_append,
      lookupW_append, orE_assoc,
      lastVal_short_eq_lookup (tokContribution_short g tok)]

/-- C1 (counterexample).  The claim says the reported count equals the
number of item tags whose Width value was changed or inserted.  On this
input the patcher reports count 1, yet the output is byte-identical to the
source: the single matched tag already carried `Width="50"` and the
replacement wrote the same value back, so no Width value was changed and
none was inserted. -/
theorem C1_counterexample :
    (apply_widths noopMap noopSrc).1 = noopSrc ∧
      (apply_widths noopMap noopSrc).2 = 1 := by
  decide

/-- C1 (amended).  The reported count equals the number of item tags on
which the patcher performed a width edit — a replacement of the first
`Width="..."` value (possibly writing back the value already present) or
an insertion of a new width attribute: exactly the tokens collected by
`editedToks` (item tags inside a known scope whose (scope, Id) key is in
the table), no more and no less. -/
theorem C1_amended_count (m : WMap) (src : List Char) :
    (apply_widths m src).2 =
      (editedToks m none ((tokenize src).1.map (·.2))).length := by
  unfold apply_widths
  exact patchPairs_count m (tokenize src).1 none

/-- C2.  Every byte of the source outside a replaced Width attribute value
(or the insertion point of a new Width attribute) appears unchanged and in
the same order in the patcher's output: source and output are related by
`WidthEditOnly`, which copies every character in order and only permits
replacing the value inside one `Width="..."` occurrence or inserting a
whole new width attribute at a point. -/
theorem C2_verbatim_preservation (m : WMap) (src : List Char) :
    WidthEditOnly src (apply_widths m src).1 := by
  have hj := tokenize_join src
  unfold apply_widths
  have := widthEditOnly_append
    (patchPairs_widthEditOnly m (tokenize src).1 none)
    (widthEditOnly_refl (tokenize src).2)
  rw [hj] at this
  exact this

/-- C5.  Scope isolation: an item token is edited only when the current
scope is set and the (currentScope, itemId) pair is a key of the table.
With no current scope the token is passed through byte-for-byte with no
count, whatever the table holds; and under scope `A` a token whose key
`(A, id)` is absent is passed through unchanged even if the table has an
entry `(B, id)` for a different scope `B`. -/
theorem C5_scope_isolation (m : WMap) (A : List Char) (tok : List Char)
    (p : List Char × List Char) (xid : List Char)
    (hg : matchGroupOpen tok = none) (hc : matchGroupClose tok = none)
    (hl : matchLsTag tok = some p) (hid : idAttrSearch tok = some xid) :
    patchTok m none tok = (none, tok, 0) ∧
      (lookupW m (A, xid) = none →
        patchTok m (some A) tok = (some A, tok, 0)) := by
  constructor
  · unfold patchTok
    simp [hg, hc, hl]
  · intro hlk
    unfold patchTok
    simp [hg, hc, hl, hid, hlk]

/-- Witness for C5 at a concrete item token with Id `X` and a table holding
only the entry keyed `(B, X)`: the token is untouched both with no current
scope and under current scope `A`. -/
theorem C5_witness :
    matchGroupOpen "<LocalizedString Id=\"X\" Width=\"9\"/>".toList = none ∧
    matchGroupClose "<LocalizedString Id=\"X\" Width=\"9\"/>".toList = none ∧
    matchLsTag "<LocalizedString Id=\"X\" Width=\"9\"/>".toList =
      some ("<LocalizedString Id=\"X\" Width=\"9\"/>".toList, []) ∧
    idAttrSearch "<LocalizedString Id=\"X\" Width=\"9\"/>".toList =
      some "X".toList ∧
    lookupW [(("B".toList, "X".toList), "7".toList)]
      ("A".toList, "X".toList) = none ∧
    patchTok [(("B".toList, "X".toList), "7".toList)] none
      "<LocalizedString Id=\"X\" Width=\"9\"/>".toList =
      (none, "<LocalizedString Id=\"X\" Width=\"9\"/>".toList, 0) ∧
    patchTok [(("B".toList, "X".toList), "7".toList)] (some "A".toList)
      "<LocalizedString Id=\"X\" Width=\"9\"/>".toList =
      (some "A".toList, "<LocalizedString Id=\"X\" Width=\"9\"/>".toList, 0) := by
  have h := C5_scope_isolation
    [(("B".toList, "X".toList), "7".toList)] "A".toList
    "<LocalizedString Id=\"X\" Width=\"9\"/>".toList
    ("<LocalizedString Id=\"X\" Width=\"9\"/>".toList, [])
    "X".toList (by decide) (by decide) (by decide) (by decide)
  exact ⟨by decide, by decide, by decide, by decide, by decide,
    h.1, h.2 (by decide)⟩

/-- C6.  The scanner's table maps each (scope, id) key to the Width value
of the last item token seen under that scope with that Id (last-seen
wins); reference tokens lacking an Id, lacking a Width, or seen with no
current scope contribute no entry (`tokContribution`/`scanRecs` collect
exactly the contributing tokens in order, and `lastVal` takes the last
record for the key). -/
theorem C6_scanner_last_wins (ref : List Char) (key : List Char × List Char) :
    lookupW (build_width_map ref) key =
      lastVal (scanRecs none ((tokenize ref).1.map (·.2))) key := by
  unfold build_width_map
  rw [scan_fold_lookup]
  simp [lookupW, orE_none_right]

/-- C8.  With any argument vector whose length differs from four (the
program name plus three positional arguments), the program prints the
usage message to standard output, exits with status 1, and performs no
file reads or writes. -/
theorem C8_usage_exit (fs : String → List Char) (argv : List String)
    (h : argv.length ≠ 4) :
    mainModel fs argv =
      { stdout := [OutLine.usage], exitCode := 1, reads := [], writes := [] } := by
  cases argv with
  | nil => rfl
  | cons a1 t1 =>
    cases t1 with
    | nil => rfl
    | cons a2 t2 =>
      cases t2 with
      | nil => rfl
      | cons a3 t3 =>
        cases t3 with
        | nil => rfl
        | cons a4 t4 =>
          cases t4 with
          | nil => simp at h
          | cons a5 t5 => rfl

/-- Witness for C8 at the one-element argument vector `["prog"]`. -/
theorem C8_witness :
    (["prog"] : List String).length ≠ 4 ∧
      mainModel (fun _ => []) ["prog"] =
        { stdout := [OutLine.usage], exitCode := 1, reads := [], writes := [] } :=
  ⟨by decide, C8_usage_exit (fun _ => []) ["prog"] (by decide)⟩

theorem getLast?_concat_char (l : List Char) (a : Char) :
    (l ++ [a]).getLast? = some a := by
  induction l with
  | nil => rfl
  | cons c cs ih =>
    rw [List.cons_append]
    cases hcs : cs ++ [a] with
    | nil => exact absurd hcs (by simp)
    | cons d ds =>
      rw [List.getLast?_cons_cons]
      rw [← hcs, ih]

theorem closerSplit_concat_gt (pre : List Char) :
    closerSplit (pre ++ ['>']) ≠ none := by
  induction pre with
  | nil => decide
  | cons c cs ih =>
    show closerSplit (c :: (cs ++ ['>'])) ≠ none
    unfold closerSplit
    by_cases hc : isCloser (c :: (cs ++ ['>'])) = true
    · simp [hc]
    · simp only [if_neg hc]
      cases hcs : closerSplit (cs ++ ['>']) with
      | none => exact absurd hcs ih
      | some p => simp

theorem matchLsTag_shape {s tok rest : List Char}
    (h : matchLsTag s = some (tok, rest)) :
    ∃ run, tok = lsLit ++ run ++ ['>'] := by
  unfold matchLsTag at h
  rw [Option.bind_eq_some] at h
  obtain ⟨r1, hstrip, h⟩ := h
  rw [Option.bind_eq_some] at h
  obtain ⟨c, _, h⟩ := h
  by_cases hw : isWordChar c = true
  · rw [if_pos hw] at h; exact absurd h (by simp)
  rw [if_neg hw] at h
  rw [Option.bind_eq_some] at h
  obtain ⟨⟨run, r2⟩, hsp, h⟩ := h
  simp only [Option.some.injEq, Prod.mk.injEq] at h
  exact ⟨run, h.1.symm⟩

/-- C9.  Every token produced by the item-tag pattern ends with the
character `>`, so the search for the closing delimiter `\s*/?>\s*$`
succeeds on it: the fallback branch of the insertion code
(`new_tag = tag`) is unreachable for item tokens. -/
theorem C9_closer_always_found (s tok rest : List Char)
    (h : matchLsTag s = some (tok, rest)) :
    tok.getLast? = some '>' ∧ closerSplit tok ≠ none := by
  obtain ⟨run, rfl⟩ := matchLsTag_shape h
  constructor
  · have := getLast?_concat_char (lsLit ++ run) '>'
    rwa [List.append_assoc] at this
  · have := closerSplit_concat_gt (lsLit ++ run)
    rwa [List.append_assoc] at this

/-- Witness for C9 at the concrete token `<LocalizedString/>`. -/
theorem C9_witness :
    matchLsTag "<LocalizedString/>".toList =
      some ("<LocalizedString/>".toList, []) ∧
    ("<LocalizedString/>".toList.getLast? = some '>' ∧
      closerSplit "<LocalizedString/>".toList ≠ none) :=
  ⟨by decide, C9_closer_always_found "<LocalizedString/>".toList
    "<LocalizedString/>".toList [] (by decide)⟩

theorem stripPre_self_append (p x : List Char) : stripPre p (p ++ x) = some x := by
  induction p with
  | nil => rfl
  | cons c cs ih => simp [stripPre, ih]

theorem dropWhile_append_stop {c : Char} {v : List Char}
    (hv : v.all (· ≠ c) = true) (rest : List Char) :
    (v ++ c :: rest).dropWhile (· ≠ c) = c :: rest := by
  induction v with
  | nil => simp [List.dropWhile]
  | cons d ds ih =>
    simp only [List.all_cons, Bool.and_eq_true] at hv
    simp only [List.cons_append, List.dropWhile]
    rw [hv.1]
    exact ih hv.2

theorem takeWhile_append_stop {c : Char} {v : List Char}
    (hv : v.all (· ≠ c) = true) (rest : List Char) :
    (v ++ c :: rest).takeWhile (· ≠ c) = v := by
  have h1 := List.takeWhile_append_dropWhile (p := (· ≠ c)) (l := v ++ c :: rest)
  rw [dropWhile_append_stop hv] at h1
  exact List.append_cancel_right h1

theorem splitAtChar_exact {c : Char} {v : List Char}
    (hv : v.all (· ≠ c) = true) (rest : List Char) :
    splitAtChar c (v ++ c :: rest) = some (v, rest) := by
  unfold splitAtChar
  rw [dropWhile_append_stop hv, takeWhile_append_stop hv]

theorem takeWhile_append_of_not_all {p : Char → Bool} {x : List Char}
    (hx : x.all p = false) (y : List Char) :
    (x ++ y).takeWhile p = x.takeWhile p := by
  induction x with
  | nil => simp at hx
  | cons d ds ih =>
    by_cases hd : p d
    · simp only [List.all_cons, hd, Bool.true_and] at hx
      simp [List.takeWhile_cons, hd, ih hx]
    · have hd' : p d = false := by simpa using hd
      simp [List.takeWhile_cons, hd']

theorem isPrefixOf_append_self (p x : List Char) : p.isPrefixOf (p ++ x) = true := by
  induction p with
  | nil => simp [List.isPrefixOf]
  | cons c cs ih => simp [List.isPrefixOf, ih]

theorem isPrefixOf_extend {p x : List Char} (h : p.isPrefixOf x = true)
    (z : List Char) : p.isPrefixOf (x ++ z) = true := by
  induction p generalizing x with
  | nil => simp [List.isPrefixOf]
  | cons c cs ih =>
    cases x with
    | nil => simp [List.isPrefixOf] at h
    | cons d ds =>
      simp only [List.isPrefixOf, Bool.and_eq_true] at h
      simp only [List.cons_append, List.isPrefixOf, Bool.and_eq_true]
      exact ⟨h.1, ih h.2⟩

theorem isPrefixOf_shorten {p x y : List Char} (h : p.isPrefixOf (x ++ y) = true)
    (hlen : p.length ≤ x.length) : p.isPrefixOf x = true := by
  induction p generalizing x with
  | nil => simp [List.isPrefixOf]
  | cons c cs ih =>
    cases x with
    | nil => simp at hlen
    | cons d ds =>
      simp only [List.cons_append, List.isPrefixOf, Bool.and_eq_true] at h
      simp only [List.isPrefixOf, Bool.and_eq_true]
      simp only [List.length_cons] at hlen
      exact ⟨h.1, ih h.2 (by omega)⟩

theorem prefix_through_stop {pat : List Char} {c : Char}
    (hpat : pat.all (· ≠ c) = true) :
    ∀ {d r : List Char}, pat.isPrefixOf (d ++ c :: r) = true →
      pat.isPrefixOf d = true := by
  intro d
  induction pat generalizing d with
  | nil => intro r _; simp [List.isPrefixOf]
  | cons p ps ih =>
    intro r h
    simp only [List.all_cons, Bool.and_eq_true] at hpat
    cases d with
    | nil =>
      simp only [List.nil_append, List.isPrefixOf, Bool.and_eq_true] at h
      have : p = c := by simpa using h.1
      rw [this] at hpat
      simp at hpat
    | cons e es =>
      simp only [List.cons_append, List.isPrefixOf, Bool.and_eq_true] at h
      simp only [List.isPrefixOf, Bool.and_eq_true]
      exact ⟨h.1, ih hpat.2 h.2⟩

theorem prefix_append_cases {pat a b : List Char}
    (h : pat.isPrefixOf (a ++ b) = true) :
    pat.isPrefixOf a = true ∨
      (a.length < pat.length ∧ (pat.drop a.length).isPrefixOf b = true) := by
  induction pat generalizing a with
  | nil => left; simp [List.isPrefixOf]
  | cons p ps ih =>
    cases a with
    | nil =>
      right
      constructor
      · simp
      · simpa using h
    | cons d ds =>
      simp only [List.cons_append, List.isPrefixOf, Bool.and_eq_true] at h
      rcases ih h.2 with h2 | ⟨hlen, h2⟩
      · left
        simp [List.isPrefixOf, h.1, h2]
      · right
        refine ⟨by simpa using Nat.succ_lt_succ hlen, ?_⟩
        simpa using h2

theorem occCount_pos {pat s : List Char} {i : Nat}
    (hi : i ≤ s.length) (h : pat.isPrefixOf (s.drop i) = true) :
    1 ≤ occCount pat s := by
  unfold occCount
  have hmem : i ∈ (List.range (s.length + 1)).filter
      (fun j => pat.isPrefixOf (s.drop j)) := by
    rw [List.mem_filter]
    exact ⟨List.mem_range.mpr (by omega), by simpa using h⟩
  have := List.length_pos.mpr (List.ne_nil_of_mem hmem)
  omega

theorem occCount_two {pat s : List Char} {i j : Nat}
    (hi : i ≤ s.length) (hj : j ≤ s.length) (hne : i ≠ j)
    (h1 : pat.isPrefixOf (s.drop i) = true)
    (h2 : pat.isPrefixOf (s.drop j) = true) :
    2 ≤ occCount pat s := by
  unfold occCount
  set l := (List.range (s.length + 1)).filter
    (fun k => pat.isPrefixOf (s.drop k)) with hl
  have hmi : i ∈ l := by
    rw [hl, List.mem_filter]
    exact ⟨List.mem_range.mpr (by omega), by simpa using h1⟩
  have hmj : j ∈ l := by
    rw [hl, List.mem_filter]
    exact ⟨List.mem_range.mpr (by omega), by simpa using h2⟩
  have hjl : j ∈ l.erase i := (List.mem_erase_of_ne (Ne.symm hne)).mpr hmj
  have h1p : 1 ≤ (l.erase i).length :=
    List.length_pos.mpr (List.ne_nil_of_mem hjl)
  have := List.length_erase_of_mem hmi
  omega

theorem lastOr_nil (prev : Option Char) : lastOr prev [] = prev := rfl

theorem lastOr_cons (prev : Option Char) (c : Char) (a : List Char) :
    lastOr prev (c :: a) = lastOr (some c) a := by
  cases a with
  | nil => simp [lastOr]
  | cons d ds =>
    unfold lastOr
    rw [List.getLast?_cons_cons]
    cases h : (d :: ds).getLast? with
    | none => simp at h
    | some e => rfl

theorem findLit_spec (pat : List Char) (hpat : pat ≠ []) :
    ∀ (a : List Char) (prev : Option Char) (b : List Char),
      boundaryOk (lastOr prev a) = true →
      pat.isPrefixOf b = true →
      (∀ i, i < a.length →
        (boundaryOk (lastOr prev (a.take i)) &&
          pat.isPrefixOf (a.drop i ++ b)) = false) →
      findLit pat prev (a ++ b) = some (a, b) := by
  intro a
  induction a with
  | nil =>
    intro prev b hb hp _
    cases b with
    | nil =>
      cases pat with
      | nil => exact absurd rfl hpat
      | cons p ps => simp [List.isPrefixOf] at hp
    | cons c cs =>
      rw [lastOr_nil] at hb
      show findLit pat prev (c :: cs) = some ([], c :: cs)
      unfold findLit
      rw [if_pos (by simp [hb, hp])]
  | cons c a2 ih =>
    intro prev b hb hp hfirst
    show findLit pat prev (c :: (a2 ++ b)) = some (c :: a2, b)
    unfold findLit
    have h0 := hfirst 0 (by simp)
    simp only [List.take_zero, lastOr_nil, List.drop_zero, List.cons_append] at h0
    rw [if_neg (by rw [h0]; simp)]
    have ihx := ih (some c) b
      (by rwa [lastOr_cons] at hb) hp
      (fun i hi => by
        have := hfirst (i + 1) (by simp only [List.length_cons]; omega)
        simpa [List.take_succ_cons, List.drop_succ_cons, lastOr_cons] using this)
    rw [ihx]
    rfl

theorem closerSplit_spec :
    ∀ (a b : List Char), isCloser b = true →
      (∀ i, i < a.length → isCloser (a.drop i ++ b) = false) →
      closerSplit (a ++ b) = some (a, b) := by
  intro a
  induction a with
  | nil =>
    intro b hb _
    cases b with
    | nil => exact absurd hb (by decide)
    | cons c cs =>
      show closerSplit (c :: cs) = some ([], c :: cs)
      unfold closerSplit
      rw [if_pos hb]
  | cons c a2 ih =>
    intro b hb hfirst
    show closerSplit (c :: (a2 ++ b)) = some (c :: a2, b)
    unfold closerSplit
    have h0 := hfirst 0 (by simp)
    simp only [List.drop_zero, List.cons_append] at h0
    rw [if_neg (by rw [h0]; simp)]
    have ihx := ih b hb (fun i hi => by
      have := hfirst (i + 1) (by simp only [List.length_cons]; omega)
      simpa [List.drop_succ_cons] using this)
    rw [ihx]
    rfl

/-- C4.  Insertion placement for a matched item tag with no Width
attribute: when the tag contains a `\bHeight="` occurrence, the text
`Width="<w>" ` is inserted immediately before the first such occurrence
(`a` is everything before it, `b` the tag from `Height` on); when the tag
contains neither, ` Width="<w>"` is inserted immediately before the
leftmost match of the closing-delimiter pattern `\s*/?>\s*$` (so before
any trailing whitespace, the optional `/` and the final `>`), preserving
that trailing text. -/
theorem C4_insertion_placement (w tag a b : List Char) :
    (findAttr widthLit none tag = none →
      tag = a ++ b →
      boundaryOk (lastOr none a) = true →
      heightLit.isPrefixOf b = true →
      (∀ i, i < a.length →
        (boundaryOk (lastOr none (a.take i)) &&
          heightLit.isPrefixOf (a.drop i ++ b)) = false) →
      editTag w tag = a ++ widthLit ++ w ++ '"' :: ' ' :: b) ∧
    (findAttr widthLit none tag = none →
      findLit heightLit none tag = none →
      tag = a ++ b →
      isCloser b = true →
      (∀ i, i < a.length → isCloser (a.drop i ++ b) = false) →
      editTag w tag = a ++ ' ' :: (widthLit ++ w ++ '"' :: b)) := by
  constructor
  · intro hw htag hbd hpre hfirst
    subst htag
    have hfl := findLit_spec heightLit (by decide) a none b hbd hpre hfirst
    unfold editTag
    rw [hw, hfl]
  · intro hw hh htag hcl hfirst
    subst htag
    have hcs := closerSplit_spec a b hcl hfirst
    unfold editTag
    rw [hw, hh, hcs]

/-- Witness for C4: the spec's example tag gets its width inserted
before `Height="20"`, and a tag with neither attribute gets it inserted
before the closing ` />` with the blank preserved. -/
theorem C4_witness :
    editTag "50".toList "<LocalizedString Id=\"OkButton\" Height=\"20\"/>".toList =
      "<LocalizedString Id=\"OkButton\" ".toList ++ widthLit ++ "50".toList ++
        '"' :: ' ' :: "Height=\"20\"/>".toList ∧
    editTag "50".toList "<LocalizedString Id=\"OkButton\" />".toList =
      "<LocalizedString Id=\"OkButton\"".toList ++
        ' ' :: (widthLit ++ "50".toList ++ '"' :: " />".toList) :=
  ⟨(C4_insertion_placement "50".toList
      "<LocalizedString Id=\"OkButton\" Height=\"20\"/>".toList
      "<LocalizedString Id=\"OkButton\" ".toList "Height=\"20\"/>".toList).1
      (by decide) (by decide) (by decide) (by decide) (by decide),
    (C4_insertion_placement "50".toList
      "<LocalizedString Id=\"OkButton\" />".toList
      "<LocalizedString Id=\"OkButton\"".toList " />".toList).2
      (by decide) (by decide) (by decide) (by decide) (by decide)⟩

theorem gOpenTry_inv {r1 : List Char} {k : Nat} {t cap rest : List Char}
    (h : gOpenTry r1 k = some (t, cap, rest)) :
    k ≠ 0 ∧ isWordChar (r1.getD (k - 1) ' ') = false ∧
    ∃ r2 r3 a2, stripPre idLit (r1.drop k) = some r2 ∧
      r2 = cap ++ '"' :: r3 ∧ cap = r2.takeWhile (· ≠ '"') ∧ cap ≠ [] ∧
      r3 = a2 ++ '>' :: rest ∧ a2 = r3.takeWhile (· ≠ '>') ∧
      t = gOpenLit ++ r1.take k ++ idLit ++ cap ++ '"' :: (a2 ++ ['>']) := by
  unfold gOpenTry at h
  by_cases hk : k = 0
  · rw [if_pos hk] at h; exact absurd h (by simp)
  rw [if_neg hk] at h
  by_cases hw : isWordChar (r1.getD (k - 1) ' ') = true
  · rw [if_pos hw] at h; exact absurd h (by simp)
  rw [if_neg hw] at h
  rw [Option.bind_eq_some] at h
  obtain ⟨r2, hstrip, h⟩ := h
  rw [Option.bind_eq_some] at h
  obtain ⟨⟨v, r3⟩, hsp, h⟩ := h
  by_cases hv : (v : List Char).isEmpty
  · rw [if_pos hv] at h; exact absurd h (by simp)
  rw [if_neg hv] at h
  rw [Option.bind_eq_some] at h
  obtain ⟨⟨a2, r4⟩, hsp2, h⟩ := h
  simp only [Option.some.injEq, Prod.mk.injEq] at h
  obtain ⟨rfl, rfl, rfl⟩ := h
  refine ⟨hk, by simpa using hw, r2, r3, a2, hstrip, ?_, ?_, ?_, ?_, ?_, rfl⟩
  · exact (splitAtChar_decomp hsp).1
  · exact (splitAtChar_decomp hsp).2
  · simpa [List.isEmpty_iff] using hv
  · exact (splitAtChar_decomp hsp2).1
  · exact (splitAtChar_decomp hsp2).2

theorem gOpenLoop_inv {r1 : List Char} {n : Nat}
    {res : List Char × List Char × List Char}
    (h : gOpenLoop r1 n = some res) :
    ∃ k, 1 ≤ k ∧ k ≤ n ∧ gOpenTry r1 k = some res ∧
      ∀ k', k < k' → k' ≤ n → gOpenTry r1 k' = none := by
  induction n with
  | zero => simp [gOpenLoop] at h
  | succ n ih =>
    unfold gOpenLoop at h
    rw [orE_eq_some] at h
    rcases h with h | ⟨hnone, h⟩
    · exact ⟨n + 1, by omega, le_rfl, h, fun k' h1 h2 => by omega⟩
    · obtain ⟨k, h1, h2, h3, h4⟩ := ih h
      refine ⟨k, h1, by omega, h3, fun k' hk1 hk2 => ?_⟩
      by_cases hk' : k' = n + 1
      · subst hk'; exact hnone
      · exact h4 k' hk1 (by omega)

theorem gOpenLoop_skip {r1 : List Char} {j : Nat}
    {res : List Char × List Char × List Char}
    (hk : gOpenTry r1 j = some res) :
    ∀ n, j ≤ n → (∀ k', j < k' → k' ≤ n → gOpenTry r1 k' = none) →
      gOpenLoop r1 n = some res := by
  intro n
  induction n with
  | zero =>
    intro h0 _
    obtain rfl : j = 0 := by omega
    exact absurd hk (by simp [gOpenTry])
  | succ n ih =>
    intro hle hfail
    by_cases hk0 : j = n + 1
    · subst hk0
      unfold gOpenLoop
      rw [hk]
      rfl
    · unfold gOpenLoop
      rw [hfail (n + 1) (by omega) le_rfl]
      have := ih (by omega) (fun k' h1 h2 => hfail k' h1 (by omega))
      simpa [orE] using this

theorem stripPre_some_isPrefixOf {p s r : List Char}
    (h : stripPre p s = some r) : p.isPrefixOf s = true := by
  rw [stripPre_eq_append h]
  exact isPrefixOf_append_self p r

/-- A probe of the backtracking loop at any offset other than the one
carrying the (unique) `Id="` occurrence fails. -/
theorem gOpenTry_probe_none {run t : List Char} {k k' : Nat}
    (hkc : k ≤ run.length) (hk2 : k' ≤ run.length) (hne : k' ≠ k)
    (hchosen : idLit.isPrefixOf (run.drop k) = true)
    (huniq : occCount idLit (gOpenLit ++ run ++ '>' :: t) = 1)
    (ctx : List Char) :
    gOpenTry (run ++ '>' :: ctx) k' = none := by
  unfold gOpenTry
  by_cases hk0 : k' = 0
  · rw [if_pos hk0]
  rw [if_neg hk0]
  by_cases hw : isWordChar ((run ++ '>' :: ctx).getD (k' - 1) ' ') = true
  · rw [if_pos hw]
  rw [if_neg hw]
  cases hsp : stripPre idLit ((run ++ '>' :: ctx).drop k') with
  | none => rfl
  | some r2 =>
    exfalso
    have hdrop : (run ++ '>' :: ctx).drop k' = run.drop k' ++ '>' :: ctx := by
      rw [List.drop_append_eq_append_drop]
      have : k' - run.length = 0 := by omega
      rw [this]
      simp
    rw [hdrop] at hsp
    have hpre : idLit.isPrefixOf (run.drop k') = true :=
      prefix_through_stop (by decide) (stripPre_some_isPrefixOf hsp)
    -- both occurrences sit inside the full token, at distinct offsets
    have tokdrop : ∀ j, j ≤ run.length →
        (gOpenLit ++ run ++ '>' :: t).drop (j + 6) =
          run.drop j ++ '>' :: t := by
      intro j hj
      rw [List.append_assoc, List.drop_append_eq_append_drop]
      have h6 : (gOpenLit : List Char).length = 6 := by decide
      rw [h6]
      have : j + 6 - 6 = j := by omega
      rw [this]
      have : (gOpenLit : List Char).drop (j + 6) = [] := by
        apply List.drop_eq_nil_of_le
        omega
      rw [this, List.nil_append, List.drop_append_eq_append_drop]
      have : j - run.length = 0 := by omega
      rw [this]
      simp
    have occ1 : idLit.isPrefixOf
        ((gOpenLit ++ run ++ '>' :: t).drop (k + 6)) = true := by
      rw [tokdrop k hkc]
      exact isPrefixOf_extend hchosen _
    have occ2 : idLit.isPrefixOf
        ((gOpenLit ++ run ++ '>' :: t).drop (k' + 6)) = true := by
      rw [tokdrop k' hk2]
      exact isPrefixOf_extend hpre _
    have hlen : (gOpenLit ++ run ++ '>' :: t).length =
        run.length + 7 + t.length := by
      simp [gOpenLit]
      omega
    have h2 := occCount_two (i := k + 6) (j := k' + 6)
      (by omega) (by omega) (by omega) occ1 occ2
    omega

/-- The probe at the offset just before the `Id="` occurrence succeeds and
produces the expected span and capture. -/
theorem gOpenTry_at_chosen {a v b r : List Char}
    (ha1 : a ≠ []) (hl : lastNonWord a = true)
    (hv0 : v ≠ []) (hvq : v.all (· ≠ '"') = true)
    (ha2 : b.all (· ≠ '>') = true) :
    gOpenTry (a ++ idLit ++ v ++ '"' :: (b ++ '>' :: r)) a.length =
      some (gOpenLit ++ a ++ idLit ++ v ++ '"' :: (b ++ ['>']), v, r) := by
  have ha1len : 1 ≤ a.length := by
    cases a with
    | nil => exact absurd rfl ha1
    | cons c cs => simp
  unfold gOpenTry
  rw [if_neg (by omega)]
  have hgd : (a ++ idLit ++ v ++ '"' :: (b ++ '>' :: r)).getD
      (a.length - 1) ' ' = a.getD (a.length - 1) ' ' := by
    rw [List.append_assoc, List.append_assoc]
    rw [List.getD_append]
    omega
  rw [hgd]
  rw [if_neg (by
    unfold lastNonWord at hl
    simp only [Bool.not_eq_true'] at hl
    intro hc
    rw [hl] at hc
    exact Bool.false_ne_true hc)]
  have hdrop : (a ++ idLit ++ v ++ '"' :: (b ++ '>' :: r)).drop a.length =
      idLit ++ (v ++ '"' :: (b ++ '>' :: r)) := by
    rw [List.append_assoc, List.append_assoc]
    rw [List.drop_left]
  rw [hdrop, stripPre_self_append]
  simp only [Option.some_bind]
  rw [splitAtChar_exact hvq]
  simp only [Option.some_bind]
  rw [if_neg (by simpa [List.isEmpty_iff] using hv0)]
  rw [splitAtChar_exact ha2]
  simp only [Option.some_bind]
  have htake : (a ++ idLit ++ v ++ '"' :: (b ++ '>' :: r)).take a.length = a := by
    rw [List.append_assoc, List.append_assoc]
    exact List.take_left a _
  rw [htake]

theorem takeWhile_all {p : Char → Bool} (l : List Char) :
    (l.takeWhile p).all p = true := by
  induction l with
  | nil => rfl
  | cons c cs ih =>
    by_cases hc : p c = true
    · simp [List.takeWhile_cons, hc, ih]
    · simp [List.takeWhile_cons, hc]

theorem getD_take_lt {l : List Char} {n m : Nat} (h : m < n) (d : Char) :
    (l.take n).getD m d = l.getD m d := by
  rw [List.getD_eq_getElem?_getD, List.getD_eq_getElem?_getD,
    List.getElem?_take]
  rw [if_pos h]

theorem all_false_of_mem_gt {l : List Char} (h : '>' ∈ l) :
    l.all (· ≠ '>') = false := by
  rw [List.all_eq_false]
  exact ⟨'>', h, by simp⟩

/-- Master characterization of the scope-open match for a well-delimited
tag whose text after `<Group` is `a ++ Id=" ++ v ++ " ++ b ++ >` with a
unique `Id="` occurrence: the whole tag matches and the captured scope is
exactly `v`. -/
theorem matchGroupOpen_shape {a v b : List Char}
    (ha1 : a ≠ []) (hh : headNonWord a = true) (hl : lastNonWord a = true)
    (ha1gt : a.all (· ≠ '>') = true)
    (hv0 : v ≠ []) (hvq : v.all (· ≠ '"') = true)
    (hvgt : v.all (· ≠ '>') = true)
    (ha2 : b.all (· ≠ '>') = true)
    (huniq : occCount idLit
      (gOpenLit ++ a ++ idLit ++ v ++ '"' :: (b ++ ['>'])) = 1) :
    matchGroupOpen (gOpenLit ++ a ++ idLit ++ v ++ '"' :: (b ++ ['>'])) =
      some (gOpenLit ++ a ++ idLit ++ v ++ '"' :: (b ++ ['>']), v, []) := by
  have hrun : a ++ idLit ++ v ++ '"' :: (b ++ ['>']) =
      (a ++ idLit ++ v ++ '"' :: b) ++ '>' :: [] := by
    simp
  have hallrun : (a ++ idLit ++ v ++ '"' :: b).all (· ≠ '>') = true := by
    simp only [List.all_append, List.all_cons, Bool.and_eq_true]
    exact ⟨⟨⟨ha1gt, by decide⟩, hvgt⟩, by decide, ha2⟩
  unfold matchGroupOpen
  rw [show gOpenLit ++ a ++ idLit ++ v ++ '"' :: (b ++ ['>']) =
    gOpenLit ++ (a ++ idLit ++ v ++ '"' :: (b ++ ['>'])) by simp]
  rw [stripPre_self_append]
  simp only [Option.some_bind]
  obtain ⟨c0, cs0, rfl⟩ : ∃ c0 cs0, a = c0 :: cs0 := by
    cases a with
    | nil => exact absurd rfl ha1
    | cons x xs => exact ⟨x, xs, rfl⟩
  have hhead : ((c0 :: cs0) ++ idLit ++ v ++ '"' :: (b ++ ['>'])).head? = some c0 := by
    simp
  rw [show (c0 :: cs0) ++ idLit ++ v ++ '"' :: (b ++ ['>']) =
    c0 :: (cs0 ++ idLit ++ v ++ '"' :: (b ++ ['>'])) by simp]
  simp only [List.head?_cons, Option.some_bind]
  have hc0 : isWordChar c0 = false := by
    unfold headNonWord at hh
    simpa using hh
  rw [if_neg (by rw [hc0]; exact Bool.false_ne_true)]
  have hback : c0 :: (cs0 ++ idLit ++ v ++ '"' :: (b ++ ['>'])) =
      (c0 :: cs0) ++ idLit ++ v ++ '"' :: (b ++ ['>']) := by simp
  rw [hback, hrun]
  have htw : (((c0 :: cs0) ++ idLit ++ v ++ '"' :: b) ++ '>' :: []).takeWhile
      (· ≠ '>') = (c0 :: cs0) ++ idLit ++ v ++ '"' :: b :=
    takeWhile_append_stop hallrun []
  rw [htw]
  apply gOpenLoop_skip (j := (c0 :: cs0).length)
  · have := gOpenTry_at_chosen (a := c0 :: cs0) (v := v) (b := b) (r := [])
      (by simp) hl hv0 hvq ha2
    rw [show (c0 :: cs0) ++ idLit ++ v ++ '"' :: (b ++ '>' :: []) =
      ((c0 :: cs0) ++ idLit ++ v ++ '"' :: b) ++ '>' :: [] by simp] at this
    simpa using this
  · simp only [List.length_append, List.length_cons]
    have : (idLit : List Char).length = 4 := by decide
    omega
  · intro k2 hk1 hk2
    refine gOpenTry_probe_none (k := (c0 :: cs0).length)
      (t := ([] : List Char)) ?_ ?_ ?_ ?_ ?_ []
    · simp only [List.length_append]
      omega
    · simpa using hk2
    · omega
    · have hd : (c0 :: cs0 ++ idLit ++ v ++ '"' :: b).drop (c0 :: cs0).length =
          idLit ++ (v ++ '"' :: b) := by
        rw [show c0 :: cs0 ++ idLit ++ v ++ '"' :: b =
          (c0 :: cs0) ++ (idLit ++ (v ++ '"' :: b)) by simp]
        exact List.drop_left _ _
      rw [hd]
      exact isPrefixOf_append_self idLit (v ++ '"' :: b)
    · simpa using huniq

/-- C7 (corrected).  Scope registration as the program actually performs
it: a scope-open tag `<Group ... Id="<v>" ...>` (text `a1` between the
tag name and the `Id="` attribute, text `a2` after it, any attribute
order and count) matches the scope-open pattern capturing `v`, and both
the patcher and the scanner set the current scope to `v` on encountering
it, leaving the tag bytes unchanged and counting nothing — provided the
tag carries exactly one word-boundary-preceded `Id="` occurrence and no
`>` before its closing delimiter, the conditions under which the capture
coincides with the tag's Id attribute value.  The separate counterexample
shows these conditions are necessary: with a second `Id="` occurrence the
rightmost one wins, and with a `>` inside an earlier attribute value the
tag registers nothing. -/
theorem C7_scope_registration (m m0 : WMap) (g0 : Option (List Char))
    (a1 v a2 : List Char)
    (ha1 : a1 ≠ []) (hh : headNonWord a1 = true) (hl : lastNonWord a1 = true)
    (ha1gt : a1.all (· ≠ '>') = true)
    (hv0 : v ≠ []) (hvq : v.all (· ≠ '"') = true)
    (hvgt : v.all (· ≠ '>') = true)
    (ha2 : a2.all (· ≠ '>') = true)
    (huniq : occCount idLit
      (gOpenLit ++ a1 ++ idLit ++ v ++ '"' :: (a2 ++ ['>'])) = 1) :
    matchGroupOpen (gOpenLit ++ a1 ++ idLit ++ v ++ '"' :: (a2 ++ ['>'])) =
      some (gOpenLit ++ a1 ++ idLit ++ v ++ '"' :: (a2 ++ ['>']), v, []) ∧
    patchTok m g0 (gOpenLit ++ a1 ++ idLit ++ v ++ '"' :: (a2 ++ ['>'])) =
      (some v, gOpenLit ++ a1 ++ idLit ++ v ++ '"' :: (a2 ++ ['>']), 0) ∧
    (scanTok (g0, m0) (gOpenLit ++ a1 ++ idLit ++ v ++ '"' :: (a2 ++ ['>']))).1 =
      some v := by
  have hm := matchGroupOpen_shape ha1 hh hl ha1gt hv0 hvq hvgt ha2 huniq
  refine ⟨hm, ?_, ?_⟩
  · unfold patchTok
    rw [hm]
  · unfold scanTok
    rw [hm]

/-- Witness for C7 at the concrete tag `<Group Id="Dialog1">`:
the matcher captures `Dialog1` and both components install it as the
current scope. -/
theorem C7_witness :
    matchGroupOpen "<Group Id=\"Dialog1\">".toList =
      some ("<Group Id=\"Dialog1\">".toList, "Dialog1".toList, []) ∧
    patchTok [] none "<Group Id=\"Dialog1\">".toList =
      (some "Dialog1".toList, "<Group Id=\"Dialog1\">".toList, 0) ∧
    (scanTok (none, []) "<Group Id=\"Dialog1\">".toList).1 =
      some "Dialog1".toList := by
  have h := C7_scope_registration [] [] none [' '] "Dialog1".toList []
    (by decide) (by decide) (by decide) (by decide) (by decide) (by decide)
    (by decide) (by decide) (by decide)
  have he : "<Group Id=\"Dialog1\">".toList =
      gOpenLit ++ [' '] ++ idLit ++ "Dialog1".toList ++ '"' :: ([] ++ ['>']) := by
    decide
  rw [he]
  exact h

/-- C7 counterexample.  The unconditional claim — every `<Group ...
Id="<v>" ...>` tag containing an Id attribute sets the current scope to
that Id attribute's value, for any attribute order and count — is false
of the program on two well-formed scope-open tags.  `c7tagA`, that is
`<Group Id="G" data-Id="x">`, carries the Id attribute value `G` (as the
program's own Id probe confirms), yet the scope-open pattern's greedy
backtracking captures the rightmost word-boundary-preceded `Id="`, the
one inside `data-Id`, so the scanner and the patcher set the scope to
`x`, not `G`.  `c7tagB`, that is `<Group a="x>y" Id="G">`, also carries
the Id attribute value `G`, but the `>` inside the attribute value `x>y`
stops the pattern's `[^>]*`: the tag matches no token at all and both
components leave the current scope untouched instead of setting it. -/
theorem C7_counterexample :
    (matchGroupOpen c7tagA = some (c7tagA, "x".toList, []) ∧
     (scanTok (none, ([] : WMap)) c7tagA).1 = some "x".toList ∧
     (patchTok ([] : WMap) none c7tagA).1 = some "x".toList ∧
     idAttrSearch c7tagA = some "G".toList ∧
     "x".toList ≠ "G".toList) ∧
    (matchToken c7tagB = none ∧
     tokenize c7tagB = ([], c7tagB) ∧
     (scanTok (some "S".toList, ([] : WMap)) c7tagB).1 = some "S".toList ∧
     (patchTok ([] : WMap) (some "S".toList) c7tagB).1 = some "S".toList ∧
     idAttrSearch c7tagB = some "G".toList) := by
  decide

/-- C10.  A self-closing group tag `<Group Id="<gid>"/>` carrying an Id
attribute matches the scope-open pattern in both scanner and patcher:
encountering it sets the current scope to `gid`, that scope persists over
a following item token (both components keep it), and it is only cleared
by a `</Group>` token (or replaced by another scope-open token, which by
the first conjunct installs the new id). -/
theorem C10_selfclosing_group (m m0 : WMap) (g0 : Option (List Char))
    (gid tok2 : List Char) (p : List Char × List Char)
    (hv0 : gid ≠ []) (hvq : gid.all (· ≠ '"') = true)
    (hvgt : gid.all (· ≠ '>') = true)
    (huniq : occCount idLit
      (gOpenLit ++ [' '] ++ idLit ++ gid ++ '"' :: (['/'] ++ ['>'])) = 1)
    (hg2 : matchGroupOpen tok2 = none) (hc2 : matchGroupClose tok2 = none)
    (_hl2 : matchLsTag tok2 = some p) :
    matchGroupOpen (gOpenLit ++ [' '] ++ idLit ++ gid ++ '"' :: (['/'] ++ ['>'])) =
      some (gOpenLit ++ [' '] ++ idLit ++ gid ++ '"' :: (['/'] ++ ['>']), gid, []) ∧
    (patchTok m g0 (gOpenLit ++ [' '] ++ idLit ++ gid ++ '"' :: (['/'] ++ ['>']))).1 =
      some gid ∧
    (scanTok (g0, m0) (gOpenLit ++ [' '] ++ idLit ++ gid ++ '"' :: (['/'] ++ ['>']))).1 =
      some gid ∧
    (patchTok m (some gid) tok2).1 = some gid ∧
    (scanTok (some gid, m0) tok2).1 = some gid ∧
    (patchTok m (some gid) gCloseLit).1 = none ∧
    (scanTok (some gid, m0) gCloseLit).1 = none := by
  have hm := matchGroupOpen_shape (a := [' ']) (v := gid) (b := ['/'])
    (by decide) (by decide) (by decide) (by decide) hv0 hvq hvgt
    (by decide) huniq
  refine ⟨hm, ?_, ?_, ?_, ?_, ?_, ?_⟩
  · unfold patchTok
    rw [hm]
  · unfold scanTok
    rw [hm]
  · rw [patchTok_state]
    unfold scopeStep
    rw [hg2, hc2]
  · rw [scanTok_eq]
    unfold scopeStep
    rw [hg2, hc2]
  · unfold patchTok
    rw [show matchGroupOpen gCloseLit = none from by decide]
    rw [show matchGroupClose gCloseLit = some (gCloseLit, []) from by decide]
  · rw [scanTok_eq]
    unfold scopeStep
    rw [show matchGroupOpen gCloseLit = none from by decide]
    rw [show matchGroupClose gCloseLit = some (gCloseLit, []) from by decide]

/-- Witness for C10 at `<Group Id="G"/>` followed by the item token
`<LocalizedString Id="a"/>`. -/
theorem C10_witness :
    matchGroupOpen "<Group Id=\"G\"/>".toList =
      some ("<Group Id=\"G\"/>".toList, "G".toList, []) ∧
    (patchTok [] none "<Group Id=\"G\"/>".toList).1 = some "G".toList ∧
    (scanTok (none, []) "<Group Id=\"G\"/>".toList).1 = some "G".toList ∧
    (patchTok [] (some "G".toList) "<LocalizedString Id=\"a\"/>".toList).1 =
      some "G".toList ∧
    (scanTok (some "G".toList, []) "<LocalizedString Id=\"a\"/>".toList).1 =
      some "G".toList ∧
    (patchTok [] (some "G".toList) gCloseLit).1 = none ∧
    (scanTok (some "G".toList, []) gCloseLit).1 = none := by
  have h := C10_selfclosing_group [] [] none "G".toList
    "<LocalizedString Id=\"a\"/>".toList
    ("<LocalizedString Id=\"a\"/>".toList, [])
    (by decide) (by decide) (by decide) (by decide) (by decide) (by decide)
    (by decide)
  have he : "<Group Id=\"G\"/>".toList =
      gOpenLit ++ [' '] ++ idLit ++ "G".toList ++ '"' :: (['/'] ++ ['>']) := by
    decide
  rw [he]
  exact ⟨h.1, h.2.1, h.2.2.1, h.2.2.2.1, h.2.2.2.2.1, h.2.2.2.2.2.1,
    h.2.2.2.2.2.2⟩

theorem stripPre_gOpen_ls (y : List Char) :
    stripPre gOpenLit ('<' :: 'L' :: y) = none := by
  show (if '<' = '<' then stripPre ['G', 'r', 'o', 'u', 'p'] ('L' :: y)
    else none) = none
  rw [if_pos rfl]
  show (if 'G' = 'L' then stripPre ['r', 'o', 'u', 'p'] y else none) = none
  rw [if_neg (by decide)]

theorem stripPre_gClose_ls (y : List Char) :
    stripPre gCloseLit ('<' :: 'L' :: y) = none := by
  show (if '<' = '<' then stripPre ['/', 'G', 'r', 'o', 'u', 'p', '>'] ('L' :: y)
    else none) = none
  rw [if_pos rfl]
  show (if '/' = 'L' then stripPre ['G', 'r', 'o', 'u', 'p', '>'] y else none) = none
  rw [if_neg (by decide)]

theorem stripPre_gOpen_slash (y : List Char) :
    stripPre gOpenLit ('<' :: '/' :: y) = none := by
  show (if '<' = '<' then stripPre ['G', 'r', 'o', 'u', 'p'] ('/' :: y)
    else none) = none
  rw [if_pos rfl]
  show (if 'G' = '/' then stripPre ['r', 'o', 'u', 'p'] y else none) = none
  rw [if_neg (by decide)]

theorem lsLit_cons (y : List Char) :
    lsLit ++ y = '<' :: 'L' ::
      (['o', 'c', 'a', 'l', 'i', 'z', 'e', 'd', 'S', 't', 'r', 'i', 'n', 'g'] ++ y) := by
  rfl

theorem gCloseLit_cons (y : List Char) :
    gCloseLit ++ y = '<' :: '/' :: (['G', 'r', 'o', 'u', 'p', '>'] ++ y) := by
  rfl

theorem matchGroupOpen_on_ls (y : List Char) :
    matchGroupOpen (lsLit ++ y) = none := by
  unfold matchGroupOpen
  rw [lsLit_cons, stripPre_gOpen_ls]
  rfl

theorem matchGroupClose_on_ls (y : List Char) :
    matchGroupClose (lsLit ++ y) = none := by
  unfold matchGroupClose
  rw [lsLit_cons, stripPre_gClose_ls]
  rfl

theorem matchGroupOpen_on_gclose (y : List Char) :
    matchGroupOpen (gCloseLit ++ y) = none := by
  unfold matchGroupOpen
  rw [gCloseLit_cons, stripPre_gOpen_slash]
  rfl

theorem matchLsTag_inv {s tok rest : List Char}
    (h : matchLsTag s = some (tok, rest)) :
    ∃ r1 run c, stripPre lsLit s = some r1 ∧ r1.head? = some c ∧
      isWordChar c = false ∧ r1 = run ++ '>' :: rest ∧
      run.all (· ≠ '>') = true ∧ tok = lsLit ++ run ++ ['>'] := by
  unfold matchLsTag at h
  rw [Option.bind_eq_some] at h
  obtain ⟨r1, hstrip, h⟩ := h
  rw [Option.bind_eq_some] at h
  obtain ⟨c, hc, h⟩ := h
  by_cases hw : isWordChar c = true
  · rw [if_pos hw] at h; exact absurd h (by simp)
  rw [if_neg hw] at h
  rw [Option.bind_eq_some] at h
  obtain ⟨⟨run, r2⟩, hsp, h⟩ := h
  simp only [Option.some.injEq, Prod.mk.injEq] at h
  obtain ⟨rfl, rfl⟩ := h
  have hd := splitAtChar_decomp hsp
  exact ⟨r1, run, c, hstrip, hc, by simpa using hw, hd.1,
    hd.2 ▸ takeWhile_all r1, rfl⟩

theorem matchLsTag_ctx {t : List Char} (h : matchLsTag t = some (t, []))
    (r : List Char) : matchLsTag (t ++ r) = some (t, r) := by
  obtain ⟨r1, run, c, hstrip, hc, hw, hr1, hrun, htok⟩ := matchLsTag_inv h
  unfold matchLsTag
  rw [stripPre_append r hstrip]
  have hr1ne : r1 ≠ [] := by
    rw [hr1]
    intro hcontra
    exact absurd (congrArg List.length hcontra) (by simp)
  have hhead : (r1 ++ r).head? = some c := by
    cases r1 with
    | nil => exact absurd rfl hr1ne
    | cons x xs =>
      simp only [List.head?_cons] at hc
      simpa using hc
  rw [Option.some_bind, hhead, Option.some_bind]
  rw [if_neg (by rw [hw]; exact Bool.false_ne_true)]
  have : r1 ++ r = run ++ '>' :: r := by
    rw [hr1]
    simp
  rw [this, splitAtChar_exact hrun]
  rw [Option.some_bind]
  rw [htok]

theorem matchToken_ls_ctx {t : List Char} (h : matchLsTag t = some (t, []))
    (r : List Char) : matchToken (t ++ r) = some (t, r) := by
  obtain ⟨r1, run, c, hstrip, hc, hw, hr1, hrun, htok⟩ := matchLsTag_inv h
  have happ : t ++ r = lsLit ++ (run ++ ['>'] ++ r) := by
    rw [htok]
    simp
  unfold matchToken
  rw [happ, matchGroupOpen_on_ls, matchGroupClose_on_ls, ← happ]
  rw [matchLsTag_ctx h r]
  rfl

theorem matchToken_gclose_ctx (r : List Char) :
    matchToken (gCloseLit ++ r) = some (gCloseLit, r) := by
  unfold matchToken
  rw [matchGroupOpen_on_gclose]
  unfold matchGroupClose
  rw [stripPre_self_append]
  rfl

/-- A scope-open token that matches itself exactly and carries a unique
`Id="` occurrence matches identically with any text appended: the greedy
backtracking cannot be lured across the token's final `>` . -/
theorem matchGroupOpen_ctx {tok cap : List Char}
    (hiso : matchGroupOpen tok = some (tok, cap, []))
    (huniq : occCount idLit tok = 1) (r : List Char) :
    matchGroupOpen (tok ++ r) = some (tok, cap, r) := by
  unfold matchGroupOpen at hiso
  rw [Option.bind_eq_some] at hiso
  obtain ⟨r1, hstrip, hiso⟩ := hiso
  rw [Option.bind_eq_some] at hiso
  obtain ⟨c, hc, hiso⟩ := hiso
  by_cases hw : isWordChar c = true
  · rw [if_pos hw] at hiso; exact absurd hiso (by simp)
  rw [if_neg hw] at hiso
  obtain ⟨kc, hkc1, hkcN, htry, hprobes⟩ := gOpenLoop_inv hiso
  obtain ⟨hkc0, hbd, r2, r3, a2c, hstrip2, hr2, hcapTW, hcapne, hr3, ha2TW,
    htokshape⟩ := gOpenTry_inv htry
  have htokr1 : tok = gOpenLit ++ r1 := stripPre_eq_append hstrip
  have hdropk : r1.drop kc = idLit ++ r2 := stripPre_eq_append hstrip2
  have hkclt : kc < r1.length := by
    by_contra hcon
    have : r1.drop kc = [] := List.drop_eq_nil_of_le (by omega)
    rw [hdropk] at this
    exact absurd (congrArg List.length this) (by simp [idLit])
  have hr1shape : r1 = r1.take kc ++ idLit ++ cap ++ '"' :: (a2c ++ ['>']) := by
    have h1 : gOpenLit ++ r1 =
        gOpenLit ++ (r1.take kc ++ idLit ++ cap ++ '"' :: (a2c ++ ['>'])) := by
      rw [← htokr1, htokshape]
      simp
    have := List.append_cancel_left h1
    simpa using this
  have hallfalse : r1.all (· ≠ '>') = false := by
    apply all_false_of_mem_gt
    rw [hr1shape]
    simp
  have hdwne : ∃ tail1, r1.dropWhile (· ≠ '>') = '>' :: tail1 := by
    cases hdw : r1.dropWhile (· ≠ '>') with
    | nil =>
      exfalso
      have := List.takeWhile_append_dropWhile (p := (· ≠ '>')) (l := r1)
      rw [hdw, List.append_nil] at this
      rw [← this] at hallfalse
      rw [takeWhile_all] at hallfalse
      exact absurd hallfalse (by decide)
    | cons x xs =>
      have hx : x = '>' := by simpa using dropWhile_head_false hdw
      subst hx
      exact ⟨xs, rfl⟩
  obtain ⟨tail1, hdw⟩ := hdwne
  have hsplit : r1 = r1.takeWhile (· ≠ '>') ++ '>' :: tail1 := by
    conv_lhs => rw [← List.takeWhile_append_dropWhile (p := (· ≠ '>')) (l := r1)]
    rw [hdw]
  have hN : kc ≤ (r1.takeWhile (· ≠ '>')).length := hkcN
  have hchosen : idLit.isPrefixOf ((r1.takeWhile (· ≠ '>')).drop kc) = true := by
    have hdk : r1.drop kc = (r1.takeWhile (· ≠ '>')).drop kc ++ '>' :: tail1 := by
      conv_lhs => rw [hsplit]
      rw [List.drop_append_eq_append_drop]
      have : kc - (r1.takeWhile (· ≠ '>')).length = 0 := by omega
      rw [this]
      simp
    apply prefix_through_stop (c := '>') (by decide)
    rw [← hdk, hdropk]
    exact isPrefixOf_append_self idLit r2
  have hr1ne : r1 ≠ [] := by
    intro hcon
    rw [hcon] at hkclt
    simp at hkclt
  have hheadctx : (r1 ++ r).head? = some c := by
    cases r1 with
    | nil => exact absurd rfl hr1ne
    | cons x xs => simpa using hc
  unfold matchGroupOpen
  rw [show tok ++ r = gOpenLit ++ (r1 ++ r) from by rw [htokr1]; simp]
  rw [stripPre_self_append, Option.some_bind, hheadctx, Option.some_bind]
  rw [if_neg hw]
  rw [takeWhile_append_of_not_all hallfalse]
  apply gOpenLoop_skip (j := kc)
  · have ha1len : (r1.take kc).length = kc := by
      rw [List.length_take]
      omega
    have hchoctx := gOpenTry_at_chosen (a := r1.take kc) (v := cap)
      (b := a2c) (r := r)
      (by
        intro hcon
        rw [hcon] at ha1len
        simp at ha1len
        omega)
      (by
        unfold lastNonWord
        rw [ha1len, getD_take_lt (by omega), hbd]
        rfl)
      hcapne (hcapTW ▸ takeWhile_all r2) (ha2TW ▸ takeWhile_all r3)
    rw [ha1len] at hchoctx
    rw [show r1 ++ r =
      r1.take kc ++ idLit ++ cap ++ '"' :: (a2c ++ '>' :: r) from by
        conv_lhs => rw [hr1shape]
        simp]
    rw [hchoctx, htokshape]
  · exact hN
  · intro k2 hk1 hk2
    rw [show r1 ++ r = r1.takeWhile (· ≠ '>') ++ '>' :: (tail1 ++ r) from by
      conv_lhs => rw [hsplit]
      simp]
    refine gOpenTry_probe_none (k := kc) (t := tail1)
      hN hk2 (by omega) hchosen ?_ (tail1 ++ r)
    have : gOpenLit ++ r1.takeWhile (· ≠ '>') ++ '>' :: tail1 =
        gOpenLit ++ r1 := by
      conv_rhs => rw [hsplit]
      simp
    rw [this, ← htokr1]
    exact huniq

theorem tokenize_nil_pairs_tail :
    ∀ (n : Nat) (s tl : List Char), s.length ≤ n →
      tokenize s = ([], tl) → tl = s := by
  intro n
  induction n with
  | zero =>
    intro s tl hlen h
    have hs : s = [] := by
      cases s with
      | nil => rfl
      | cons c cs => simp at hlen
    subst hs
    rw [tokenize_nil] at h
    rw [Prod.mk.injEq] at h
    exact h.2.symm
  | succ n ih =>
    intro s tl hlen h
    cases hm : matchToken s with
    | some p =>
      obtain ⟨tok, rest⟩ := p
      rw [tokenize_cons_match hm] at h
      rw [Prod.mk.injEq] at h
      simp at h
    | none =>
      cases s with
      | nil =>
        rw [tokenize_nil] at h
        rw [Prod.mk.injEq] at h
        exact h.2.symm
      | cons c cs =>
        rw [tokenize_cons_gap hm] at h
        rcases htc : tokenize cs with ⟨ps2, tl2⟩
        rw [htc] at h
        cases ps2 with
        | nil =>
          simp only [tokenizeGap] at h
          rw [Prod.mk.injEq] at h
          have hcs : tl2 = cs := ih cs tl2 (by simp at hlen; omega) htc
          rw [← h.2, hcs]
        | cons p ps3 =>
          obtain ⟨g0, t0⟩ := p
          simp only [tokenizeGap] at h
          rw [Prod.mk.injEq] at h
          simp at h

theorem tokenize_tail_self :
    ∀ (n : Nat) (s : List Char) (ps : List (List Char × List Char))
      (tl : List Char), s.length ≤ n → tokenize s = (ps, tl) →
      tokenize tl = ([], tl) := by
  intro n
  induction n with
  | zero =>
    intro s ps tl hlen h
    have hs : s = [] := by
      cases s with
      | nil => rfl
      | cons c cs => simp at hlen
    subst hs
    rw [tokenize_nil] at h
    rw [Prod.mk.injEq] at h
    rw [← h.2]
    exact tokenize_nil
  | succ n ih =>
    intro s ps tl hlen h
    cases hm : matchToken s with
    | some p =>
      obtain ⟨tok, rest⟩ := p
      rw [tokenize_cons_match hm] at h
      rcases htr : tokenize rest with ⟨ps2, tl2⟩
      rw [htr] at h
      rw [Prod.mk.injEq] at h
      have hlt := matchToken_rest_lt hm
      have := ih rest ps2 tl2 (by omega) htr
      rw [← h.2]
      exact this
    | none =>
      cases s with
      | nil =>
        rw [tokenize_nil] at h
        rw [Prod.mk.injEq] at h
        rw [← h.2]
        exact tokenize_nil
      | cons c cs =>
        rw [tokenize_cons_gap hm] at h
        rcases htc : tokenize cs with ⟨ps2, tl2⟩
        rw [htc] at h
        cases ps2 with
        | nil =>
          simp only [tokenizeGap] at h
          rw [Prod.mk.injEq] at h
          have hcs : tl2 = cs :=
            tokenize_nil_pairs_tail n cs tl2 (by simp at hlen; omega) htc
          subst hcs
          rw [← h.2]
          rw [tokenize_cons_gap hm, htc]
          simp [tokenizeGap]
        | cons p ps3 =>
          obtain ⟨g0, t0⟩ := p
          simp only [tokenizeGap] at h
          rw [Prod.mk.injEq] at h
          have := ih cs ((g0, t0) :: ps3) tl2 (by simp at hlen; omega) htc
          rw [← h.2]
          exact this

theorem stripPre_none_of_not_prefix {p s : List Char}
    (h : p.isPrefixOf s = false) : stripPre p s = none := by
  cases hs : stripPre p s with
  | none => rfl
  | some r =>
    rw [stripPre_some_isPrefixOf hs] at h
    exact absurd h (by decide)

theorem mem_drop_one_of_mem_drop {l : List Char} {j : Nat} {a : Char}
    (hj : 1 ≤ j) (h : a ∈ l.drop j) : a ∈ l.drop 1 := by
  have : l.drop j = (l.drop 1).drop (j - 1) := by
    rw [List.drop_drop]
    congr 1
    omega
  rw [this] at h
  exact List.mem_of_mem_drop h

/-- No tag-opening literal can start inside a well-delimited gap when the
text after the gap begins with `<`: the literal would either occur inside
the gap (excluded by `gapGood`) or straddle into the `<`, impossible since
none of the literals has `<` after position 0. -/
theorem lit_not_prefix_in_gap {l gap z : List Char} {i : Nat}
    (hlt : '<' ∉ l.drop 1) (hocc : occCount l gap = 0)
    (hi : i < gap.length) :
    l.isPrefixOf (gap.drop i ++ '<' :: z) = false := by
  cases hpre : l.isPrefixOf (gap.drop i ++ '<' :: z) with
  | false => rfl
  | true =>
    exfalso
    rcases prefix_append_cases hpre with hp | ⟨hlen, hp⟩
    · have := occCount_pos (i := i) (by omega) hp
      omega
    · cases hd : l.drop (gap.drop i).length with
      | nil =>
        rw [hd] at hp
        rw [List.length_drop] at hlen
        have : l.length ≤ (gap.drop i).length := by
          have := congrArg List.length hd
          simp at this
          omega
        rw [List.length_drop] at this
        omega
      | cons d ds =>
        rw [hd] at hp
        simp only [List.isPrefixOf, Bool.and_eq_true] at hp
        have hdlt : d = '<' := by simpa using hp.1
        apply hlt
        have hge : 1 ≤ (gap.drop i).length := by
          rw [List.length_drop]
          omega
        have : d ∈ l.drop (gap.drop i).length := by
          rw [hd]
          simp
        rw [hdlt] at this
        exact mem_drop_one_of_mem_drop hge this

theorem matchToken_gap_none {gap z : List Char} (hgap : gapGood gap = true)
    {i : Nat} (hi : i < gap.length) :
    matchToken (gap.drop i ++ '<' :: z) = none := by
  simp only [gapGood, Bool.and_eq_true, beq_iff_eq] at hgap
  obtain ⟨⟨h1, h2⟩, h3⟩ := hgap
  have hgo := stripPre_none_of_not_prefix
    (lit_not_prefix_in_gap (l := gOpenLit) (z := z) (by decide) h1 hi)
  have hgc := stripPre_none_of_not_prefix
    (lit_not_prefix_in_gap (l := gCloseLit) (z := z) (by decide) h2 hi)
  have hls := stripPre_none_of_not_prefix
    (lit_not_prefix_in_gap (l := lsLit) (z := z) (by decide) h3 hi)
  unfold matchToken matchGroupOpen matchGroupClose matchLsTag
  rw [hgo, hgc, hls]
  rfl

theorem tokenize_gap_block :
    ∀ (gap x : List Char),
      (∀ i, i < gap.length → matchToken (gap.drop i ++ x) = none) →
      tokenize (gap ++ x) =
        (match (tokenize x).1 with
         | [] => ([], gap ++ (tokenize x).2)
         | (g0, t0) :: ps => ((gap ++ g0, t0) :: ps, (tokenize x).2)) := by
  intro gap
  induction gap with
  | nil =>
    intro x _
    rcases ht : tokenize x with ⟨ps, tl⟩
    cases ps with
    | nil => simpa using ht
    | cons p ps2 =>
      obtain ⟨g0, t0⟩ := p
      simpa using ht
  | cons c gap2 ih =>
    intro x hfail
    have h0 : matchToken (c :: (gap2 ++ x)) = none := by
      have := hfail 0 (by simp)
      simpa using this
    rw [show (c :: gap2) ++ x = c :: (gap2 ++ x) from rfl]
    rw [tokenize_cons_gap h0]
    rw [ih x (fun i hi => by
      have := hfail (i + 1) (by simp; omega)
      simpa using this)]
    rcases ht : tokenize x with ⟨ps, tl⟩
    cases ps with
    | nil => simp [tokenizeGap]
    | cons p ps2 =>
      obtain ⟨g0, t0⟩ := p
      simp [tokenizeGap]

/-- One well-delimited block: a gap (with no token start inside it)
followed by a token that matches itself in context scans to exactly that
(gap, token) pair. -/
theorem tokenize_block {gap t y z : List Char} (hgap : gapGood gap = true)
    (ht : t = '<' :: z)
    (hmt : matchToken (t ++ y) = some (t, y)) :
    tokenize (gap ++ t ++ y) =
      ((gap, t) :: (tokenize y).1, (tokenize y).2) := by
  have hfail : ∀ i, i < gap.length →
      matchToken (gap.drop i ++ (t ++ y)) = none := by
    intro i hi
    have := matchToken_gap_none (z := z ++ y) hgap hi
    rwa [show gap.drop i ++ '<' :: (z ++ y) = gap.drop i ++ (t ++ y) from by
      rw [ht]; simp] at this
  rw [List.append_assoc, tokenize_gap_block gap (t ++ y) hfail]
  rw [tokenize_cons_match hmt]
  simp

theorem matchToken_src_head {s t rest : List Char}
    (h : matchToken s = some (t, rest)) : ∃ z, s = '<' :: z := by
  unfold matchToken at h
  rw [orE_eq_some] at h
  rcases h with h | ⟨_, h⟩
  · rw [Option.map_eq_some'] at h
    obtain ⟨⟨t0, cap0, r0⟩, hg, _⟩ := h
    unfold matchGroupOpen at hg
    rw [Option.bind_eq_some] at hg
    obtain ⟨r1, hstrip, _⟩ := hg
    exact ⟨_, by rw [stripPre_eq_append hstrip]; rfl⟩
  · rw [orE_eq_some] at h
    rcases h with h | ⟨_, h⟩
    · unfold matchGroupClose at h
      rw [Option.map_eq_some'] at h
      obtain ⟨r0, hstrip, _⟩ := h
      exact ⟨_, by rw [stripPre_eq_append hstrip]; rfl⟩
    · unfold matchLsTag at h
      rw [Option.bind_eq_some] at h
      obtain ⟨r1, hstrip, _⟩ := h
      exact ⟨_, by rw [stripPre_eq_append hstrip]; rfl⟩

/-- Master consequence of a well-delimited token: the patcher's emitted
token matches itself as a token in any right context, re-patching the
emitted token reproduces the same result, and the emitted token starts
with `<`. -/
theorem goodTok_main {m : WMap} {g : Option (List Char)} {tok : List Char}
    (h : goodTok m g tok = true) :
    (∀ X, matchToken ((patchTok m g tok).2.1 ++ X) =
        some ((patchTok m g tok).2.1, X)) ∧
    patchTok m g ((patchTok m g tok).2.1) = patchTok m g tok ∧
    ∃ z, (patchTok m g tok).2.1 = '<' :: z := by
  unfold goodTok at h
  cases hg : matchGroupOpen tok with
  | some p =>
    obtain ⟨t, cap, rest⟩ := p
    rw [hg] at h
    simp only [Bool.and_eq_true, beq_iff_eq, List.isEmpty_iff] at h
    obtain ⟨⟨rfl, rfl⟩, huniq⟩ := h
    have hout : patchTok m g t = (some cap, t, 0) := by
      simp [patchTok, hg]
    have hself : ∀ X, matchToken (t ++ X) = some (t, X) := by
      intro X
      unfold matchToken
      rw [matchGroupOpen_ctx hg huniq X]
      rfl
    refine ⟨by rw [hout]; exact hself, by rw [hout]; exact hout, ?_⟩
    rw [hout]
    have := hself []
    rw [List.append_nil] at this
    exact matchToken_src_head this
  | none =>
    rw [hg] at h
    cases hc : matchGroupClose tok with
    | some p =>
      rw [hc] at h
      simp only [beq_iff_eq] at h
      subst h
      have hout : patchTok m g gCloseLit = (none, gCloseLit, 0) := by
        simp [patchTok, hg, hc]
      refine ⟨by rw [hout]; exact matchToken_gclose_ctx,
        by rw [hout]; exact hout, ?_⟩
      rw [hout]
      exact ⟨_, rfl⟩
    | none =>
      rw [hc] at h
      cases hl : matchLsTag tok with
      | none =>
        rw [hl] at h
        simp at h
      | some p =>
        obtain ⟨t, rest⟩ := p
        rw [hl] at h
        simp only [Bool.and_eq_true, beq_iff_eq, List.isEmpty_iff] at h
        obtain ⟨⟨rfl, rfl⟩, h⟩ := h
        have hself : ∀ X, matchToken (t ++ X) = some (t, X) :=
          matchToken_ls_ctx hl
        cases hgs : g with
        | none =>
          have hout : patchTok m none t = (none, t, 0) := by
            simp [patchTok, hg, hc, hl]
          refine ⟨by rw [hout]; exact hself, by rw [hout]; exact hout, ?_⟩
          rw [hout]
          have := hself []
          rw [List.append_nil] at this
          exact matchToken_src_head this
        | some gs =>
          cases hid : idAttrSearch t with
          | none =>
            have hout : patchTok m (some gs) t = (some gs, t, 0) := by
              simp [patchTok, hg, hc, hl, hid]
            refine ⟨by rw [hout]; exact hself, by rw [hout]; exact hout, ?_⟩
            rw [hout]
            have := hself []
            rw [List.append_nil] at this
            exact matchToken_src_head this
          | some locId =>
            cases hlk : lookupW m (gs, locId) with
            | none =>
              have hout : patchTok m (some gs) t = (some gs, t, 0) := by
                simp [patchTok, hg, hc, hl, hid, hlk]
              refine ⟨by rw [hout]; exact hself, by rw [hout]; exact hout, ?_⟩
              rw [hout]
              have := hself []
              rw [List.append_nil] at this
              exact matchToken_src_head this
            | some w =>
              simp only [hgs, hid, hlk] at h
              simp only [Bool.and_eq_true, beq_iff_eq] at h
              obtain ⟨⟨hE1, hE2⟩, hE3⟩ := h
              have hout : patchTok m (some gs) t = (some gs, editTag w t, 1) := by
                simp [patchTok, hg, hc, hl, hid, hlk]
              obtain ⟨r1, run, c, _, _, _, _, _, hshape⟩ := matchLsTag_inv hE1
              have hg2 : matchGroupOpen (editTag w t) = none := by
                rw [hshape, List.append_assoc]
                exact matchGroupOpen_on_ls _
              have hc2 : matchGroupClose (editTag w t) = none := by
                rw [hshape, List.append_assoc]
                exact matchGroupClose_on_ls _
              have hfix : patchTok m (some gs) (editTag w t) =
                  (some gs, editTag w t, 1) := by
                simp [patchTok, hg2, hc2, hE1, hE2, hlk, hE3]
              refine ⟨by rw [hout]; exact matchToken_ls_ctx hE1,
                by rw [hout]; exact hfix, ?_⟩
              rw [hout, hshape]
              exact ⟨_, rfl⟩

/-- Pass 2 re-tokenization: on a well-delimited pair list, tokenizing the
patcher's output recovers exactly the gap/emitted-token pairs. -/
theorem tokenize_pass2 (m : WMap) :
    ∀ (L : List (List Char × List Char)) (g : Option (List Char))
      (tl : List Char),
      goodPairs m g L = true → tokenize tl = ([], tl) →
      tokenize ((patchPairs m g L).1 ++ tl) = (outPairs m g L, tl) := by
  intro L
  induction L with
  | nil =>
    intro g tl _ htl
    simpa [patchPairs, outPairs] using htl
  | cons p rest ih =>
    intro g tl hgood htl
    obtain ⟨gap, tok⟩ := p
    simp only [goodPairs, Bool.and_eq_true] at hgood
    obtain ⟨⟨hgap, htok⟩, hrest⟩ := hgood
    obtain ⟨hself, _, z, hz⟩ := goodTok_main htok
    have hih := ih (scopeStep g tok) tl hrest htl
    simp only [patchPairs, outPairs]
    rw [patchTok_state]
    rw [show (gap ++ (patchTok m g tok).2.1 ++
        (patchPairs m (scopeStep g tok) rest).1) ++ tl =
        gap ++ (patchTok m g tok).2.1 ++
          ((patchPairs m (scopeStep g tok) rest).1 ++ tl) from by simp]
    rw [tokenize_block hgap hz (hself _)]
    rw [hih]

/-- Pass 2 patching: re-patching the emitted pairs under the same table
reproduces them (and the same count). -/
theorem patchPairs_pass2 (m : WMap) :
    ∀ (L : List (List Char × List Char)) (g : Option (List Char)),
      goodPairs m g L = true →
      patchPairs m g (outPairs m g L) = patchPairs m g L := by
  intro L
  induction L with
  | nil => intro g _; rfl
  | cons p rest ih =>
    intro g hgood
    obtain ⟨gap, tok⟩ := p
    simp only [goodPairs, Bool.and_eq_true] at hgood
    obtain ⟨⟨hgap, htok⟩, hrest⟩ := hgood
    obtain ⟨_, hfix, _⟩ := goodTok_main htok
    simp only [outPairs, patchPairs]
    rw [hfix, patchTok_state]
    rw [ih (scopeStep g tok) hrest]

/-- C3 (corrected): the patcher is idempotent on sources that are
well-delimited for it — every scanned token matches its own pattern
exactly, scope-open tokens carry a unique `Id="` occurrence, gaps between
tokens contain no tag-opening literal, and every performed edit is stable
(the edited tag re-tokenizes to itself, keeps its Id, and re-editing it
reproduces the same bytes).  Unconditional idempotence is refuted by the
separate counterexample: a Width value containing `>` truncates the item
token and the second pass garbles the tag. -/
theorem C3_amended_idempotent (m : WMap) (src : List Char)
    (h : GoodSource m src = true) :
    (apply_widths m (apply_widths m src).1).1 = (apply_widths m src).1 := by
  unfold GoodSource at h
  rcases htk : tokenize src with ⟨ps, tl⟩
  rw [htk] at h
  have htl : tokenize tl = ([], tl) :=
    tokenize_tail_self src.length src ps tl (le_refl _) htk
  have h1 : apply_widths m src =
      ((patchPairs m none ps).1 ++ tl, (patchPairs m none ps).2) := by
    simp only [apply_widths, htk]
  have h2 : tokenize ((patchPairs m none ps).1 ++ tl) =
      (outPairs m none ps, tl) := tokenize_pass2 m ps none tl h htl
  rw [h1]
  simp only [apply_widths, h2]
  rw [patchPairs_pass2 m ps none h]

/-- C3 counterexample: a single legal `>` inside a Width attribute value
makes the patcher non-idempotent — the second pass rewrites the already
patched text. -/
theorem C3_counterexample :
    (apply_widths idemMap (apply_widths idemMap idemSrc).1).1 ≠
      (apply_widths idemMap idemSrc).1 := by
  decide

/-- C3 witness: the spec's own example source is well-delimited and the
amended idempotence theorem applies to it. -/
theorem C3_witness :
    GoodSource exMap3 exSrc3 = true ∧
    (apply_widths exMap3 (apply_widths exMap3 exSrc3).1).1 =
      (apply_widths exMap3 exSrc3).1 :=
  ⟨by decide, C3_amended_idempotent exMap3 exSrc3 (by decide)⟩

end MergeTranslation
